import Mathlib

/-!
Verification of the access-log statistics program (`log_parser.py`).

The development shallowly embeds the program's core pipeline:

* the line matching performed by `log_record_re` (a backtracking matcher for
  the fixed pattern, with Python `re` semantics for lazy/greedy `+`
  quantifiers, `.` excluding the newline, and `$` matching at the end of the
  string or just before a trailing newline);
* `_gen_file_log_records` restricted to one line (`parse_log_line`) and to a
  list of lines (`gen_file_log_records`);
* `_format_month` / `calendar.month_name` (English names, as the spec fixes);
* `_get_stats` (the month / language accumulators);
* `_reshape_stats` (percentage, ranking, mean and standard deviation).

Machine reals (Python floats) are modelled by exact rationals; the standard
deviation, whose exact value is an irrational square root, is modelled at the
level of its square (the population variance): `stddev_MB` in the report is
the nonnegative square root of the `stddevSq_MB` value computed here.
-/

namespace LogParser

/-! ### Character classes and tokens of `log_record_re`

The pattern
`^.+? \[\d+/(?P<month>\d+)/(?P<year>\d+).+?\] \".+? /(?P<language>.+?)/(?P<file_name>.+?) .+\" (?P<status_code>\d+) (?P<bytes_served>\d+)$`
is a sequence of literal characters and `+`-quantified single-character
classes (each either lazy or greedy), some of them capturing groups.  `\d` is
modelled as the ASCII digits and `.` as any character other than `'\n'`. -/

/-- A single-character class of the pattern: `.` or `\d`. -/
inductive CC where
  | any : CC
  | digit : CC
deriving DecidableEq

/-- Membership of a character in a class.  `.` does not match a newline
(no `DOTALL`); `\d` is the decimal digits. -/
def CC.mem : CC → Char → Bool
  | .any, c => c != '\n'
  | .digit, c => c.isDigit

/-- The named capture groups of `log_record_re`. -/
inductive GName where
  | month | year | language | file_name | status_code | bytes_served
deriving DecidableEq

/-- The groups converted with `int(...)` by `_gen_file_log_records`. -/
def GName.isNumeric : GName → Bool
  | .month => true
  | .year => true
  | .status_code => true
  | .bytes_served => true
  | .language => false
  | .file_name => false

/-- The captured group values: one optional character list per group. -/
structure Caps where
  month : Option (List Char) := none
  year : Option (List Char) := none
  language : Option (List Char) := none
  file_name : Option (List Char) := none
  status_code : Option (List Char) := none
  bytes_served : Option (List Char) := none
deriving DecidableEq

/-- Read one group of a capture record. -/
def Caps.get (caps : Caps) : GName → Option (List Char)
  | .month => caps.month
  | .year => caps.year
  | .language => caps.language
  | .file_name => caps.file_name
  | .status_code => caps.status_code
  | .bytes_served => caps.bytes_served

/-- Store a group value (no group: unchanged). -/
def Caps.set (caps : Caps) : Option GName → List Char → Caps
  | none, _ => caps
  | some .month, w => { caps with month := some w }
  | some .year, w => { caps with year := some w }
  | some .language, w => { caps with language := some w }
  | some .file_name, w => { caps with file_name := some w }
  | some .status_code, w => { caps with status_code := some w }
  | some .bytes_served, w => { caps with bytes_served := some w }

/-- One element of the pattern: a literal character, a `+`-quantified class
(`greedy = false` encodes the lazy `+?`), or an in-progress quantifier that
has already consumed the reversed character list `acc` (internal state of the
matcher only). -/
inductive Tok where
  | lit (c : Char) : Tok
  | plus (cc : CC) (greedy : Bool) (cap : Option GName) : Tok
  | plusAcc (cc : CC) (greedy : Bool) (cap : Option GName) (acc : List Char) : Tok
deriving DecidableEq

/-- The token sequence of `log_record_re`, in order. -/
def logToks : List Tok :=
  [ .plus .any false none,                      -- ^.+?
    .lit ' ', .lit '[',                          -- " ["
    .plus .digit true none,                      -- \d+   (day)
    .lit '/',
    .plus .digit true (some .month),             -- (?P<month>\d+)
    .lit '/',
    .plus .digit true (some .year),              -- (?P<year>\d+)
    .plus .any false none,                       -- .+?
    .lit ']',
    .lit ' ', .lit '"',
    .plus .any false none,                       -- .+?   (method)
    .lit ' ', .lit '/',
    .plus .any false (some .language),           -- (?P<language>.+?)
    .lit '/',
    .plus .any false (some .file_name),          -- (?P<file_name>.+?)
    .lit ' ',
    .plus .any true none,                        -- .+    (protocol etc.)
    .lit '"',
    .lit ' ',
    .plus .digit true (some .status_code),       -- (?P<status_code>\d+)
    .lit ' ',
    .plus .digit true (some .bytes_served) ]     -- (?P<bytes_served>\d+)$

/-- Does the rest of the input satisfy `$` (end of string, or a single
trailing newline)? -/
def atEnd (input : List Char) : Bool :=
  input.isEmpty || input == ['\n']

/-- The backtracking matcher.  Alternatives are explored in Python `re`
priority order: a greedy `+` prefers consuming one more character, a lazy
`+?` prefers handing over to the rest of the pattern; the first complete
match (with its captures) wins.  `fuel` bounds the recursion depth; every
recursive call strictly decreases the pair (input length, token list length)
lexicographically, so `(n + 1) * (toks.length + 2)` fuel is never exhausted
on an input of length `n`. -/
def mrun (fuel : Nat) (toks : List Tok) (input : List Char) (caps : Caps) :
    Option Caps :=
  match fuel with
  | 0 => none
  | fuel + 1 =>
    match toks with
    | [] => if atEnd input then some caps else none
    | .lit c :: rest =>
      match input with
      | [] => none
      | c' :: input' => if c' == c then mrun fuel rest input' caps else none
    | .plus cc greedy cap :: rest =>
      match input with
      | [] => none
      | c :: input' =>
        if cc.mem c then
          mrun fuel (.plusAcc cc greedy cap [c] :: rest) input' caps
        else none
    | .plusAcc cc greedy cap acc :: rest =>
      if greedy then
        Option.orElse
          (match input with
           | [] => none
           | c :: input' =>
             if cc.mem c then
               mrun fuel (.plusAcc cc greedy cap (c :: acc) :: rest) input' caps
             else none)
          (fun _ => mrun fuel rest input (caps.set cap acc.reverse))
      else
        Option.orElse
          (mrun fuel rest input (caps.set cap acc.reverse))
          (fun _ =>
            match input with
            | [] => none
            | c :: input' =>
              if cc.mem c then
                mrun fuel (.plusAcc cc greedy cap (c :: acc) :: rest) input' caps
              else none)

/-- Fuel that the matcher can never exhaust on an input of length `n`. -/
def enoughFuel (n : Nat) : Nat := (n + 1) * (logToks.length + 2)

/-- The effect of `log_record_re.match(line)`: the captures of the highest-priority match
of the pattern against the whole line, or `none` on a structural mismatch. -/
def log_record_match (line : String) : Option Caps :=
  mrun (enoughFuel line.data.length) logToks line.data {}

/-! ### One line of `_gen_file_log_records` -/

/-- The `LogRecord` named tuple. -/
structure LogRecord where
  year : Nat
  month : Nat
  language : String
  file_name : String
  status_code : Nat
  bytes_served : Nat
deriving DecidableEq

/-- One element of the sequence produced by `_gen_file_log_records`:
either a `LogRecord` or a `LogRecordParseError (file_path, line_number)`. -/
inductive ParseResult where
  | record (r : LogRecord) : ParseResult
  | error (file_path : String) (line_number : Nat) : ParseResult
deriving DecidableEq

/-- The numeric value of a digit string, most significant first. -/
def digitsToNat (w : List Char) : Nat :=
  w.foldl (fun n c => n * 10 + (c.toNat - '0'.toNat)) 0

/-- Python `int(...)` applied to a captured group.  The pattern only ever
captures the numeric groups as nonempty digit runs, and on those `int`
always succeeds with the usual decimal value; any other input is modelled as
a failure (raising, hence `none`). -/
def intOfGroup (w : List Char) : Option Nat :=
  if w ≠ [] ∧ w.all Char.isDigit then some (digitsToNat w) else none

/-- Python `str.replace` for a two-character pattern: scan left to right,
replacing non-overlapping occurrences of `a` followed by `b` with `r`. -/
def replace2 (a b : Char) (r : List Char) : List Char → List Char
  | [] => []
  | [c] => [c]
  | c₁ :: c₂ :: cs =>
    if c₁ = a ∧ c₂ = b then r ++ replace2 a b r cs
    else c₁ :: replace2 a b r (c₂ :: cs)

/-- The unescaping chain `escaped_file_name.replace('\\"', '"').replace('\\\\', '\\')`. -/
def unescape (w : List Char) : List Char :=
  replace2 '\\' '\\' ['\\'] (replace2 '\\' '"' ['"'] w)

/-- The body of the per-line loop of `_gen_file_log_records`: match the
pattern, convert the numeric groups with `int`, unescape the file name; a
structural mismatch or a failing conversion yields the parse error carrying
the file path and the zero-based line number. -/
def parse_log_line (file_path : String) (line_number : Nat) (line : String) :
    ParseResult :=
  match log_record_match line with
  | none => .error file_path line_number
  | some caps =>
    match caps.year, caps.month, caps.status_code, caps.bytes_served,
        caps.language, caps.file_name with
    | some ys, some ms, some ss, some bs, some lang, some fn =>
      match intOfGroup ys, intOfGroup ms, intOfGroup ss, intOfGroup bs with
      | some y, some m, some s, some b =>
        .record { year := y, month := m, language := String.mk lang,
                  file_name := String.mk (unescape fn), status_code := s,
                  bytes_served := b }
      | _, _, _, _ => .error file_path line_number
    | _, _, _, _, _, _ => .error file_path line_number

/-- Python `enumerate`: pair each element with its index, starting at `i`. -/
def enumFrom (i : Nat) : List String → List (Nat × String)
  | [] => []
  | l :: ls => (i, l) :: enumFrom (i + 1) ls

/-- The function `_gen_file_log_records`, with the file's decoded lines supplied as a
list (reading and decoding the file is I/O, outside the embedded core). -/
def gen_file_log_records (file_path : String) (lines : List String) :
    List ParseResult :=
  (enumFrom 0 lines).map (fun p => parse_log_line file_path p.1 p.2)

/-! ### `_format_month` and `_get_stats` -/

/-- The sequence `calendar.month_name` (the spec fixes English names): 13 entries, an
empty string at index 0.  Indexing past the end raises, hence `none`. -/
def month_name : List String :=
  ["", "January", "February", "March", "April", "May", "June", "July",
   "August", "September", "October", "November", "December"]

/-- The function `_format_month`: `calendar.month_name[month_number]`. -/
def format_month (month_number : Nat) : Option String :=
  month_name.get? month_number

/-- The test `request.status_code // 100 == 2` — the 2xx test of `_get_stats`. -/
def isSuccessful (r : LogRecord) : Bool :=
  r.status_code / 100 == 2

/-- The check `any(ord(ch) > 127 for ch in request.file_name)`. -/
def hasNonAscii (s : String) : Bool :=
  s.data.any (fun c => 127 < c.toNat)

/-- Dictionary lookup in an insertion-ordered association list. -/
def alookup {κ β : Type} [DecidableEq κ] (k : κ) : List (κ × β) → Option β
  | [] => none
  | p :: l => if p.1 = k then some p.2 else alookup k l

/-- Update the value stored under a key, keeping the entry's position
(Python dict assignment to an existing key). -/
def aupdate {κ β : Type} [DecidableEq κ] (k : κ) (f : β → β) :
    List (κ × β) → List (κ × β)
  | [] => []
  | p :: l => if p.1 = k then (p.1, f p.2) :: l else p :: aupdate k f l

/-- The update `Counter[k] += 1`: increment in place if present, else append with 1
(a missing `Counter` key reads as 0, and a new key goes to the end in
dict insertion order). -/
def counterAdd (hist : List (Nat × Nat)) (k : Nat) : List (Nat × Nat) :=
  match alookup k hist with
  | some _ => aupdate k (· + 1) hist
  | none => hist ++ [(k, 1)]

/-- Python `set.add`: set semantics, duplicates collapse. -/
def setAdd (s : List String) (x : String) : List String :=
  if x ∈ s then s else s ++ [x]

/-- The per-language accumulator of `_get_stats` (the `mean_MB`,
`stddev_MB` and `total_GB` slots hold `None` placeholders until
`_reshape_stats` fills them, so they are omitted here). -/
structure LangData where
  name : String
  total_successful_B : Nat
  total_successful : Nat
  bytes_served_successfully : List (Nat × Nat)
deriving DecidableEq

/-- The per-month accumulator of `_get_stats` (again without the
`percent_success` placeholder filled only by `_reshape_stats`). -/
structure MonthData where
  year : String
  month : String
  languages : List (String × LangData)
  non_ascii : List String
  total : Nat
  success : Nat
deriving DecidableEq

/-- The month key `(request.year, request.month)`. -/
abbrev MonthKey := Nat × Nat

/-- The fresh language accumulator created on first encounter. -/
def newLangData (lang : String) : LangData :=
  { name := lang, total_successful_B := 0, total_successful := 0,
    bytes_served_successfully := [] }

/-- Locate or create the month accumulator; creation formats the month
name, which raises (hence `none`) for month numbers past 12. -/
def ensureMonth (months : List (MonthKey × MonthData)) (r : LogRecord) :
    Option (List (MonthKey × MonthData)) :=
  match alookup (r.year, r.month) months with
  | some _ => some months
  | none =>
    (format_month r.month).map (fun nm =>
      months ++ [((r.year, r.month),
        { year := Nat.repr r.year, month := nm, languages := [],
          non_ascii := [], total := 0, success := 0 })])

/-- Locate or create the language accumulator inside a month. -/
def ensureLang (md : MonthData) (lang : String) : MonthData :=
  match alookup lang md.languages with
  | some _ => md
  | none => { md with languages := md.languages ++ [(lang, newLangData lang)] }

/-- The mutations `_get_stats` applies to one month's data for one record:
create the language slot, collect a non-ASCII name, count the request, and
on success update the language's totals and histogram. -/
def touchMonth (r : LogRecord) (md : MonthData) : MonthData :=
  let md := ensureLang md r.language
  let md := if hasNonAscii r.file_name then
      { md with non_ascii := setAdd md.non_ascii r.file_name } else md
  let md := { md with total := md.total + 1 }
  let md := if isSuccessful r then { md with success := md.success + 1 } else md
  if isSuccessful r then
    let upd := fun ld : LangData =>
      { ld with total_successful := ld.total_successful + 1,
                total_successful_B := ld.total_successful_B + r.bytes_served,
                bytes_served_successfully :=
                  counterAdd ld.bytes_served_successfully r.bytes_served }
    { md with languages := aupdate r.language upd md.languages }
  else md

/-- One iteration of the loop of `_get_stats`. -/
def stats_step (months : List (MonthKey × MonthData)) (r : LogRecord) :
    Option (List (MonthKey × MonthData)) :=
  (ensureMonth months r).map (aupdate (r.year, r.month) (touchMonth r))

/-- The `months` dictionary after consuming the whole record stream. -/
def get_stats_assoc (records : List LogRecord) :
    Option (List (MonthKey × MonthData)) :=
  records.foldlM stats_step []

/-- Python `sorted(months)` compares the `(year, month)` tuples
lexicographically. -/
def monthKeyLe (a b : MonthKey) : Prop :=
  a.1 < b.1 ∨ (a.1 = b.1 ∧ a.2 ≤ b.2)

instance : DecidableRel monthKeyLe := fun a b => by
  unfold monthKeyLe; infer_instance

/-- The ordering used to sort the month dictionary entries by key.
`List.insertionSort` is a stable sort, as Python's `sorted` is. -/
def monthEntryLe (a b : MonthKey × MonthData) : Prop := monthKeyLe a.1 b.1

instance : DecidableRel monthEntryLe := fun a b => by
  unfold monthEntryLe; infer_instance

/-- The function `_get_stats`: the month data listed in chronological (key) order. -/
def get_stats (records : List LogRecord) : Option (List MonthData) :=
  (get_stats_assoc records).map (fun ms =>
    (List.insertionSort monthEntryLe ms).map Prod.snd)

/-! ### `_reshape_stats`

Python float arithmetic is modelled by exact rational arithmetic.  The one
place where a float result is irrational — `statistics.pstdev`, a square
root — is modelled by the square of the value the source computes, the
population variance; the report's `stddev_MB` is its nonnegative square
root. -/

/-- The constant `mb = 1000 * 1000`. -/
def mbQ : ℚ := 1000 * 1000

/-- The constant `gb = 1000 * 1000 * 1000`. -/
def gbQ : ℚ := 1000 * 1000 * 1000

/-- The iterator `Counter.elements()`: each histogram key repeated as many times as its
count, in insertion order. -/
def elements (hist : List (Nat × Nat)) : List Nat :=
  hist.flatMap (fun p => List.replicate p.2 p.1)

/-- The square of `statistics.pstdev(data, mu)`: the mean of the squared
deviations from `mu`.  `statistics.pstdev` raises on an empty data set,
hence `none`. -/
def pstdevSq (data : List ℚ) (mu : ℚ) : Option ℚ :=
  if data.length = 0 then none
  else some (((data.map (fun x => (x - mu) ^ 2)).sum) / data.length)

/-- A reshaped per-language entry of the report (`stddevSq_MB` is the
square of the reported `stddev_MB`, see above). -/
structure RLang where
  name : String
  mean_MB : Option ℚ
  stddevSq_MB : Option ℚ
  total_GB : ℚ
deriving DecidableEq

/-- A reshaped month object of the report. -/
structure RMonth where
  year : String
  month : String
  non_ascii : List String
  total : Nat
  success : Nat
  percent_success : ℚ
  languages : List RLang
deriving DecidableEq

/-- The `ml['_total_successful_B']` comparison used to rank languages:
`sorted(..., reverse=True)` is a stable descending sort by the successful
bytes total. -/
def langRankLe (a b : LangData) : Prop :=
  b.total_successful_B ≤ a.total_successful_B

instance : DecidableRel langRankLe := fun a b => by
  unfold langRankLe; infer_instance

/-- The ranking step of `_reshape_stats`: sort the month's language values
by descending successful-bytes total (stable, as Python's `sorted`) and
keep only the first `top_count` (`del reshaped_month_langs[top_count:]`). -/
def ranked_langs (md : MonthData) (top_count : Nat) : List LangData :=
  (List.insertionSort langRankLe (md.languages.map Prod.snd)).take top_count

/-- The per-language traffic statistics of `_reshape_stats`: `total_GB`
always, and for a language with at least one successful request the
population mean and (squared) population standard deviation of the
successfully served byte counts expressed in megabytes; otherwise the
statistics are undefined (`None`). -/
def reshape_lang (ld : LangData) : Option RLang :=
  let total_GB := (ld.total_successful_B : ℚ) / gbQ
  if ld.total_successful ≠ 0 then
    let pop_mean : ℚ := (ld.total_successful_B : ℚ) / ld.total_successful / mbQ
    (pstdevSq ((elements ld.bytes_served_successfully).map
        (fun b : Nat => (b : ℚ) / mbQ)) pop_mean).map
      (fun v => { name := ld.name, mean_MB := some pop_mean,
                  stddevSq_MB := some v, total_GB := total_GB })
  else
    some { name := ld.name, mean_MB := none, stddevSq_MB := none,
           total_GB := total_GB }

/-- The megabyte-valued data set `_reshape_stats` feeds to
`statistics.pstdev`: the histogram's elements, each divided by `mb`. -/
def dataMB (ld : LangData) : List ℚ :=
  (elements ld.bytes_served_successfully).map (fun b : Nat => (b : ℚ) / mbQ)

/-- The mean the source passes as `mu` (total bytes over count, in MB). -/
def codeMean (ld : LangData) : ℚ :=
  (ld.total_successful_B : ℚ) / ld.total_successful / mbQ

/-- The function `reshape_lang`, with its local bindings expanded. -/
def reshape_langs : List LangData → Option (List RLang)
  | [] => some []
  | ld :: t =>
    match reshape_lang ld, reshape_langs t with
    | some rl, some rt => some (rl :: rt)
    | _, _ => none

/-- The per-month body of `_reshape_stats`: the assertion `total != 0`
(modelled as a guard), the success percentage, and the ranked, reshaped
language list. -/

def reshape_month (top_count : Nat) (md : MonthData) : Option RMonth :=
  if md.total = 0 then none
  else
    (reshape_langs (ranked_langs md top_count)).map (fun langs =>
      { year := md.year, month := md.month, non_ascii := md.non_ascii,
        total := md.total, success := md.success,
        percent_success := (md.success * 100 : ℚ) / md.total,
        languages := langs })

/-- The function `_reshape_stats` over the sorted month list (`top_count=5` is the
caller's default). -/

def reshape_stats : List MonthData → Nat → Option (List RMonth)
  | [], _ => some []
  | md :: t, top_count =>
    match reshape_month top_count md, reshape_stats t top_count with
    | some rm, some rt => some (rm :: rt)
    | _, _ => none

/-! ### Observers used to state the accumulator claims -/

/-- The total request count recorded for a month key (0 when absent). -/

def monthTotal (ms : List (MonthKey × MonthData)) (k : MonthKey) : Nat :=
  ((alookup k ms).map MonthData.total).getD 0

/-- The successful request count recorded for a month key (0 if absent). -/

def monthSuccess (ms : List (MonthKey × MonthData)) (k : MonthKey) : Nat :=
  ((alookup k ms).map MonthData.success).getD 0

/-- The non-ASCII file-name set recorded for a month key. -/

def monthNonAscii (ms : List (MonthKey × MonthData)) (k : MonthKey) :
    List String :=
  ((alookup k ms).map MonthData.non_ascii).getD []

/-- The language accumulator for a (month, language) pair; an absent
accumulator reads as the fresh one (all counters zero), which is exactly
the value `_get_stats` creates on first encounter. -/

def langState (ms : List (MonthKey × MonthData)) (k : MonthKey)
    (lang : String) : LangData :=
  match alookup k ms with
  | none => newLangData lang
  | some md => (alookup lang md.languages).getD (newLangData lang)

/-- The occurrence count of a histogram bucket (0 when absent). -/

def histCount (hist : List (Nat × Nat)) (b : Nat) : Nat :=
  (alookup b hist).getD 0

/-- The hundreds digit of a number — the literal reading of the spec
sentence "if the status code's hundreds digit is 2".  The source instead
tests `status_code // 100 == 2`; the two agree only below 1000. -/

def specHundredsDigit (n : Nat) : Nat := n / 100 % 10

/-! ### Association list lemmas -/

def rW : LogRecord :=
  { year := 2017, month := 3, language := "Py", file_name := "f.txt",
    status_code := 204, bytes_served := 7 }

/-- Witness for C1's amended theorem at a concrete step. -/

def langInv (ld : LangData) : Prop :=
  ld.total_successful = (ld.bytes_served_successfully.map Prod.snd).sum ∧
  ld.total_successful_B =
    (ld.bytes_served_successfully.map (fun p => p.1 * p.2)).sum

/-- The data-model invariants of one month accumulator. -/

def monthInv (md : MonthData) : Prop :=
  md.success ≤ md.total ∧ 1 ≤ md.total ∧ ∀ q ∈ md.languages, langInv q.2

/-- The invariant of the whole `months` dictionary: every entry satisfies
the month invariants, every key holds a formattable month number, and keys
are unique (it is a dictionary). -/

def statsInv (ms : List (MonthKey × MonthData)) : Prop :=
  (∀ p ∈ ms, monthInv p.2 ∧ p.1.2 ≤ 12) ∧ (ms.map Prod.fst).Nodup

def ldW : LangData :=
  { name := "Py", total_successful_B := 7, total_successful := 1,
    bytes_served_successfully := [(7, 1)] }

def mdW : MonthData :=
  { year := "2017", month := "March", languages := [("Py", ldW)],
    non_ascii := [], total := 1, success := 1 }

def msW : List (MonthKey × MonthData) := [((2017, 3), mdW)]

/-- Witness for C3 at a concrete step from the empty state. -/

instance : IsTotal (MonthKey × MonthData) monthEntryLe :=
  ⟨fun a b => by unfold monthEntryLe monthKeyLe; omega⟩

instance : IsTrans (MonthKey × MonthData) monthEntryLe :=
  ⟨fun a b c hab hbc => by
    unfold monthEntryLe monthKeyLe at hab hbc ⊢
    omega⟩

/-- The function `reshape_month` copies the month identification (and counters) from the
accumulator into the report object. -/

def recsW7 : List LogRecord :=
  [⟨2018, 5, "L", "f", 200, 10⟩, ⟨2017, 3, "M", "g", 404, 0⟩]

def ldW7a : LangData :=
  { name := "L", total_successful_B := 10, total_successful := 1,
    bytes_served_successfully := [(10, 1)] }

def ldW7b : LangData :=
  { name := "M", total_successful_B := 0, total_successful := 0,
    bytes_served_successfully := [] }

def msW7 : List (MonthKey × MonthData) :=
  [((2018, 5),
    { year := "2018", month := "May", languages := [("L", ldW7a)],
      non_ascii := [], total := 1, success := 1 }),
   ((2017, 3),
    { year := "2017", month := "March", languages := [("M", ldW7b)],
      non_ascii := [], total := 1, success := 0 })]

/-- Witness for C7 on records arriving in reverse chronological order. -/

instance : IsTotal LangData langRankLe :=
  ⟨fun a b => by unfold langRankLe; omega⟩

instance : IsTrans LangData langRankLe :=
  ⟨fun a b c hab hbc => by unfold langRankLe at hab hbc ⊢; omega⟩

/-- Inserting into the (descending, by successful bytes) order keeps each
byte-total class in encounter order: the element being inserted comes from
later in the encounter order than everything already inserted, and it lands
after every entry of its own class. -/

def md6 : MonthData :=
  { year := "2017", month := "March",
    languages :=
      [("a", ⟨"a", 600, 6, [(100, 6)]⟩), ("b", ⟨"b", 500, 5, [(100, 5)]⟩),
       ("c", ⟨"c", 400, 4, [(100, 4)]⟩), ("d", ⟨"d", 300, 3, [(100, 3)]⟩),
       ("e", ⟨"e", 200, 2, [(100, 2)]⟩), ("f", ⟨"f", 100, 1, [(100, 1)]⟩)],
    non_ascii := [], total := 21, success := 21 }

/-- C4: the ranking step keeps at most `top_count` languages, orders
them by descending successful-bytes total, and is deterministic with ties
kept in the stable order the languages were encountered in (each byte-total
class is preserved as a subsequence); any reshaped month therefore carries
at most `top_count` language entries; and with six languages of strictly
decreasing byte totals and `top_count = 5` the smallest is excluded. -/

def md0 : MonthData :=
  { year := "2017", month := "March", languages := [], non_ascii := [],
    total := 1, success := 1 }

def rm0 : RMonth :=
  { year := md0.year, month := md0.month, non_ascii := md0.non_ascii,
    total := md0.total, success := md0.success,
    percent_success := (md0.success * 100 : ℚ) / md0.total, languages := [] }

/-- Witness for C4 at a concrete month and report. -/

def populationVariance (data : List ℚ) : ℚ :=
  ((data.map (fun x => (x - data.sum / data.length) ^ 2)).sum) / data.length

def ldW5 : LangData :=
  { name := "Py", total_successful_B := 30, total_successful := 2,
    bytes_served_successfully := [(10, 1), (20, 1)] }

/-- Witness for C5 at a concrete accumulator. -/

def wordOK (g : GName) (w : List Char) : Prop :=
  w ≠ [] ∧ (g.isNumeric = true → ∀ c ∈ w, c.isDigit = true)

instance (g : GName) (w : List Char) : Decidable (wordOK g w) := by
  unfold wordOK; infer_instance

/-- A captured (or `none`) slot that is well formed for its group. -/

def goodCaps (g : GName) : Option (List Char) → Prop
  | none => False
  | some w => wordOK g w

instance (g : GName) : (o : Option (List Char)) → Decidable (goodCaps g o)
  | none => inferInstanceAs (Decidable False)
  | some w => inferInstanceAs (Decidable (wordOK g w))

/-- A token that will capture group `g` when it finishes. -/

def capPending (g : GName) : Tok → Prop
  | .lit _ => False
  | .plus _ _ cap => cap = some g
  | .plusAcc _ _ cap _ => cap = some g

instance (g : GName) : (t : Tok) → Decidable (capPending g t)
  | .lit c => inferInstanceAs (Decidable False)
  | .plus cc gr cap => inferInstanceAs (Decidable (cap = some g))
  | .plusAcc cc gr cap acc => inferInstanceAs (Decidable (cap = some g))

/-- A token whose eventual capture of `g` (if any) will be well formed:
a numeric group repeats the digit class, and an in-progress quantifier has
already consumed a nonempty, class-respecting run. -/

def capturesOK (g : GName) : Tok → Prop
  | .lit _ => True
  | .plus cc _ cap => cap = some g → g.isNumeric = true → cc = .digit
  | .plusAcc cc _ cap acc => cap = some g →
      acc ≠ [] ∧ (g.isNumeric = true →
        cc = .digit ∧ ∀ c ∈ acc, c.isDigit = true)

instance (g : GName) : (t : Tok) → Decidable (capturesOK g t)
  | .lit c => inferInstanceAs (Decidable True)
  | .plus cc gr cap =>
    inferInstanceAs (Decidable (cap = some g → g.isNumeric = true →
      cc = .digit))
  | .plusAcc cc gr cap acc =>
    inferInstanceAs (Decidable (cap = some g →
      acc ≠ [] ∧ (g.isNumeric = true →
        cc = .digit ∧ ∀ c ∈ acc, c.isDigit = true)))

/-- The invariant: every remaining capture of `g` is well formed, and `g`
is either already well captured or still pending in the remaining tokens. -/

def capInv (g : GName) (toks : List Tok) (caps : Caps) : Prop :=
  (∀ t ∈ toks, capturesOK g t) ∧
  (goodCaps g (caps.get g) ∨ ∃ t ∈ toks, capPending g t)

instance (g : GName) (toks : List Tok) (caps : Caps) :
    Decidable (capInv g toks caps) := by
  unfold capInv; infer_instance

def line0 : String := "x [01/0/2017:00 +0000] \"GET /L/f.txt HTTP/1.1\" 200 5"

/-- The record that `line0` parses into. -/

def rec0 : LogRecord :=
  { year := 2017, month := 0, language := "L", file_name := "f.txt",
    status_code := 200, bytes_served := 5 }

/-- C8, as stated, is false for month 0: the line matches the pattern, its
month number 0 lies outside 1..12, the parsing produces a `LogRecord` —
but accumulation does not fail, because `calendar.month_name[0]` is simply
the empty string. -/

def line13 : String :=
  "x [01/13/2017:00 +0000] \"GET /L/f.txt HTTP/1.1\" 200 5"

def rec13 : LogRecord :=
  { year := 2017, month := 13, language := "L", file_name := "f.txt",
    status_code := 200, bytes_served := 5 }

/-- Witness for the amended C8: the month-13 line still parses into a
record, month 13 has no name, and accumulating its record fails. -/

def lineW9a : String :=
  "x [01/12/2017:00 +0000] \"GET /Thai/a\\\\b HTTP/1.1\" 200 10"

def lineW9b : String :=
  "x [01/12/2017:00 +0000] \"GET /Thai/a\\\"b HTTP/1.1\" 200 10"

def recW9a : LogRecord :=
  { year := 2017, month := 12, language := "Thai", file_name := "a\\b",
    status_code := 200, bytes_served := 10 }

def recW9b : LogRecord :=
  { year := 2017, month := 12, language := "Thai", file_name := "a\"b",
    status_code := 200, bytes_served := 10 }

/-- Witness for C9 on two concrete lines. -/


theorem reshape_lang_eq (ld : LangData) :
    reshape_lang ld =
      if ld.total_successful ≠ 0 then
        Option.map (fun v =>
            { name := ld.name, mean_MB := some (codeMean ld),
              stddevSq_MB := some v,
              total_GB := (ld.total_successful_B : ℚ) / gbQ })
          (pstdevSq (dataMB ld) (codeMean ld))
      else
        some { name := ld.name, mean_MB := none, stddevSq_MB := none,
               total_GB := (ld.total_successful_B : ℚ) / gbQ } := rfl

/-- The inner loop of `_reshape_stats` over the retained languages, in
order; a failing language statistic aborts (propagates the raise). -/
theorem alookup_aupdate_self {κ β : Type} [DecidableEq κ] (k : κ)
    (f : β → β) (l : List (κ × β)) :
    alookup k (aupdate k f l) = (alookup k l).map f := by
  induction l with
  | nil => rfl
  | cons p t ih =>
    by_cases h : p.1 = k <;> simp [alookup, aupdate, h, ih]

theorem alookup_aupdate_ne {κ β : Type} [DecidableEq κ] {k k' : κ}
    (h : k' ≠ k) (f : β → β) (l : List (κ × β)) :
    alookup k' (aupdate k f l) = alookup k' l := by
  induction l with
  | nil => rfl
  | cons p t ih =>
    by_cases h1 : p.1 = k
    · subst h1
      simp [alookup, aupdate, Ne.symm h]
    · by_cases h2 : p.1 = k' <;> simp [alookup, aupdate, h1, h2, h, ih]

theorem alookup_append_self {κ β : Type} [DecidableEq κ] (k : κ) (v : β)
    (l : List (κ × β)) (h : alookup k l = none) :
    alookup k (l ++ [(k, v)]) = some v := by
  induction l with
  | nil => simp [alookup]
  | cons p t ih =>
    by_cases h1 : p.1 = k <;> simp_all [alookup]

theorem alookup_append_ne {κ β : Type} [DecidableEq κ] {k k' : κ}
    (h : k' ≠ k) (v : β) (l : List (κ × β)) :
    alookup k' (l ++ [(k, v)]) = alookup k' l := by
  induction l with
  | nil => simp [alookup, Ne.symm h]
  | cons p t ih =>
    by_cases h1 : p.1 = k' <;> simp [alookup, h1, ih]

theorem aupdate_fst {κ β : Type} [DecidableEq κ] (k : κ) (f : β → β)
    (l : List (κ × β)) : (aupdate k f l).map Prod.fst = l.map Prod.fst := by
  induction l with
  | nil => rfl
  | cons p t ih =>
    by_cases h : p.1 = k <;> simp [aupdate, h, ih]

/-! ### Behaviour of one accumulation step -/

theorem ensureLang_lookup (md : MonthData) (lang : String) :
    alookup lang (ensureLang md lang).languages =
      some ((alookup lang md.languages).getD (newLangData lang)) := by
  unfold ensureLang
  cases h : alookup lang md.languages with
  | none => simp [alookup_append_self lang _ _ h]
  | some ld => simp [h]

theorem ensureLang_lookup_ne (md : MonthData) {lang lang' : String}
    (h : lang' ≠ lang) :
    alookup lang' (ensureLang md lang).languages =
      alookup lang' md.languages := by
  unfold ensureLang
  cases h1 : alookup lang md.languages with
  | none => simp [alookup_append_ne h]
  | some ld => simp

theorem touchMonth_total (r : LogRecord) (md : MonthData) :
    (touchMonth r md).total = md.total + 1 := by
  unfold touchMonth ensureLang
  cases alookup r.language md.languages <;>
    cases hna : hasNonAscii r.file_name <;>
    cases hs : isSuccessful r <;> simp [hs, hna]

theorem touchMonth_success (r : LogRecord) (md : MonthData) :
    (touchMonth r md).success =
      md.success + (if isSuccessful r then 1 else 0) := by
  unfold touchMonth ensureLang
  cases alookup r.language md.languages <;>
    cases hna : hasNonAscii r.file_name <;>
    cases hs : isSuccessful r <;> simp [hs, hna]

theorem touchMonth_non_ascii (r : LogRecord) (md : MonthData) :
    (touchMonth r md).non_ascii =
      if hasNonAscii r.file_name then setAdd md.non_ascii r.file_name
      else md.non_ascii := by
  unfold touchMonth ensureLang
  cases alookup r.language md.languages <;>
    cases hna : hasNonAscii r.file_name <;>
    cases hs : isSuccessful r <;> simp [hs, hna]

theorem touchMonth_lang (r : LogRecord) (md : MonthData) :
    alookup r.language (touchMonth r md).languages =
      some (if isSuccessful r then
          (fun ld : LangData =>
            { ld with total_successful := ld.total_successful + 1,
                      total_successful_B :=
                        ld.total_successful_B + r.bytes_served,
                      bytes_served_successfully :=
                        counterAdd ld.bytes_served_successfully
                          r.bytes_served })
            ((alookup r.language md.languages).getD (newLangData r.language))
        else (alookup r.language md.languages).getD
          (newLangData r.language)) := by
  have base := ensureLang_lookup md r.language
  unfold touchMonth
  cases hs : isSuccessful r <;>
    cases hna : hasNonAscii r.file_name <;>
    simp [hs, hna, alookup_aupdate_self, base]

theorem touchMonth_lang_ne (r : LogRecord) (md : MonthData) {lang' : String}
    (h : lang' ≠ r.language) :
    alookup lang' (touchMonth r md).languages =
      alookup lang' md.languages := by
  have base := ensureLang_lookup_ne md h
  unfold touchMonth
  cases hs : isSuccessful r <;>
    cases hna : hasNonAscii r.file_name <;>
    simp [hs, hna, alookup_aupdate_ne h, base]

theorem counterAdd_self (hist : List (Nat × Nat)) (b : Nat) :
    histCount (counterAdd hist b) b = histCount hist b + 1 := by
  unfold counterAdd histCount
  cases h : alookup b hist with
  | none => simp [alookup_append_self b _ _ h, h]
  | some n => simp [alookup_aupdate_self, h]

theorem counterAdd_ne (hist : List (Nat × Nat)) {b b' : Nat} (h : b' ≠ b) :
    histCount (counterAdd hist b) b' = histCount hist b' := by
  unfold counterAdd histCount
  cases h1 : alookup b hist with
  | none => simp [alookup_append_ne h]
  | some n => simp [alookup_aupdate_ne h]

/-- The shape of a successful `ensureMonth`. -/
theorem ensureMonth_cases (months : List (MonthKey × MonthData))
    (r : LogRecord) (ms₀ : List (MonthKey × MonthData))
    (h : ensureMonth months r = some ms₀) :
    (alookup (r.year, r.month) months ≠ none ∧ ms₀ = months) ∨
    (alookup (r.year, r.month) months = none ∧
     ∃ nm, format_month r.month = some nm ∧
       ms₀ = months ++ [((r.year, r.month),
         { year := Nat.repr r.year, month := nm, languages := [],
           non_ascii := [], total := 0, success := 0 })]) := by
  unfold ensureMonth at h
  cases h1 : alookup (r.year, r.month) months with
  | some md =>
    left
    rw [h1] at h
    simp at h
    exact ⟨by simp, h.symm⟩
  | none =>
    right
    rw [h1] at h
    cases h2 : format_month r.month with
    | none => rw [h2] at h; simp at h
    | some nm =>
      rw [h2] at h
      simp at h
      exact ⟨rfl, nm, rfl, h.symm⟩

theorem isSuccessful_iff (r : LogRecord) :
    isSuccessful r = true ↔ r.status_code / 100 = 2 := by
  simp [isSuccessful]

/-- One accumulation step, summarized: some previous (or fresh) month value
is threaded through `touchMonth`, and all other month keys are untouched. -/
theorem stats_step_shape (months : List (MonthKey × MonthData))
    (r : LogRecord) (months' : List (MonthKey × MonthData))
    (h : stats_step months r = some months') :
    ∃ mdOld : MonthData,
      (alookup (r.year, r.month) months = some mdOld ∨
        (alookup (r.year, r.month) months = none ∧ mdOld.total = 0 ∧
         mdOld.success = 0 ∧ mdOld.languages = [] ∧ mdOld.non_ascii = [] ∧
         format_month r.month = some mdOld.month ∧
         mdOld.year = Nat.repr r.year)) ∧
      alookup (r.year, r.month) months' = some (touchMonth r mdOld) ∧
      ∀ k', k' ≠ (r.year, r.month) → alookup k' months' = alookup k' months := by
  unfold stats_step at h
  cases hEM : ensureMonth months r with
  | none => rw [hEM] at h; simp at h
  | some ms₀ =>
    rw [hEM] at h
    simp at h
    rcases ensureMonth_cases months r ms₀ hEM with ⟨hne, heq⟩ |
      ⟨hnone, nm, hnm, heq⟩ <;> rw [heq] at h
    · cases h1 : alookup (r.year, r.month) months with
      | none => exact absurd h1 hne
      | some md =>
        refine ⟨md, Or.inl rfl, ?_, ?_⟩
        · rw [← h, alookup_aupdate_self, h1]; rfl
        · intro k' hk'
          rw [← h, alookup_aupdate_ne hk']
    · refine ⟨{ year := Nat.repr r.year, month := nm, languages := [],
                non_ascii := [], total := 0, success := 0 },
        Or.inr ⟨hnone, rfl, rfl, rfl, rfl, hnm, rfl⟩, ?_, ?_⟩
      · rw [← h, alookup_aupdate_self, alookup_append_self _ _ _ hnone]; rfl
      · intro k' hk'
        rw [← h, alookup_aupdate_ne hk', alookup_append_ne hk']

/-- C1, literal reading, is false: for a record with status code 1200 the
hundreds digit is 2, yet the source's 2xx test `1200 // 100 == 2` fails and
the month's successful count stays 0 (while the total becomes 1). -/
theorem C1_counterexample :
    specHundredsDigit 1200 = 2 ∧
    (stats_step [] ⟨2017, 3, "Python", "a.txt", 1200, 50⟩).map
      (fun ms => (monthTotal ms (2017, 3), monthSuccess ms (2017, 3))) =
      some (1, 0) := by
  decide

/-- C1 (amended: a request is successful exactly when
`status_code / 100 = 2`, that is, the status code is in 200..299; for the
three-digit status codes of well-formed logs this is the same as "the
hundreds digit is 2").  For every record consumed by one step of
`_get_stats`: the month's total grows by exactly 1; the month's successful
count grows exactly when the record is successful; exactly when the record
is successful, the (month, language) accumulator's successful count grows
by 1, `bytes_served` is added to its successful-bytes total, and the
histogram bucket for that exact byte count grows by 1 (all other buckets
unchanged); the file name joins the month's non-ASCII set exactly when it
has a codepoint above 127, with set semantics (duplicates collapse); the
month accumulator exists after the step and all other months and languages
are untouched (accumulators are created only on first encounter). -/
theorem C1_stats_step_spec (months : List (MonthKey × MonthData))
    (r : LogRecord) (months' : List (MonthKey × MonthData))
    (h : stats_step months r = some months') :
    (alookup (r.year, r.month) months').isSome = true ∧
    monthTotal months' (r.year, r.month) =
      monthTotal months (r.year, r.month) + 1 ∧
    monthSuccess months' (r.year, r.month) =
      monthSuccess months (r.year, r.month) +
        (if r.status_code / 100 = 2 then 1 else 0) ∧
    (r.status_code / 100 = 2 →
      (langState months' (r.year, r.month) r.language).total_successful =
        (langState months (r.year, r.month) r.language).total_successful + 1 ∧
      (langState months' (r.year, r.month) r.language).total_successful_B =
        (langState months (r.year, r.month) r.language).total_successful_B +
          r.bytes_served ∧
      histCount (langState months' (r.year, r.month)
          r.language).bytes_served_successfully r.bytes_served =
        histCount (langState months (r.year, r.month)
          r.language).bytes_served_successfully r.bytes_served + 1 ∧
      ∀ b, b ≠ r.bytes_served →
        histCount (langState months' (r.year, r.month)
            r.language).bytes_served_successfully b =
          histCount (langState months (r.year, r.month)
            r.language).bytes_served_successfully b) ∧
    (r.status_code / 100 ≠ 2 →
      langState months' (r.year, r.month) r.language =
        langState months (r.year, r.month) r.language) ∧
    (hasNonAscii r.file_name = true →
      monthNonAscii months' (r.year, r.month) =
        setAdd (monthNonAscii months (r.year, r.month)) r.file_name) ∧
    (hasNonAscii r.file_name = false →
      monthNonAscii months' (r.year, r.month) =
        monthNonAscii months (r.year, r.month)) ∧
    (∀ (s : List String) (x : String), x ∈ s → setAdd s x = s) ∧
    (∀ (s : List String) (x : String), x ∈ setAdd s x) ∧
    (∀ k', k' ≠ (r.year, r.month) → alookup k' months' = alookup k' months) ∧
    (∀ lang', lang' ≠ r.language →
      langState months' (r.year, r.month) lang' =
        langState months (r.year, r.month) lang') := by
  obtain ⟨mdOld, hOld, hNew, hOther⟩ := stats_step_shape months r months' h
  have hLangOld : langState months (r.year, r.month) r.language =
      (alookup r.language mdOld.languages).getD (newLangData r.language) := by
    unfold langState
    rcases hOld with h1 | ⟨h1, _, _, hl, _⟩
    · rw [h1]
    · rw [h1, hl]; rfl
  have hTotalOld : monthTotal months (r.year, r.month) = mdOld.total := by
    unfold monthTotal
    rcases hOld with h1 | ⟨h1, ht, _⟩
    · rw [h1]; rfl
    · rw [h1, ht]; rfl
  have hSuccOld : monthSuccess months (r.year, r.month) = mdOld.success := by
    unfold monthSuccess
    rcases hOld with h1 | ⟨h1, _, hs, _⟩
    · rw [h1]; rfl
    · rw [h1, hs]; rfl
  have hNaOld : monthNonAscii months (r.year, r.month) = mdOld.non_ascii := by
    unfold monthNonAscii
    rcases hOld with h1 | ⟨h1, _, _, _, hna, _⟩
    · rw [h1]; rfl
    · rw [h1, hna]; rfl
  have hLangNew : langState months' (r.year, r.month) r.language =
      (alookup r.language (touchMonth r mdOld).languages).getD
        (newLangData r.language) := by
    unfold langState; rw [hNew]
  have hTotNew : monthTotal months' (r.year, r.month) =
      (touchMonth r mdOld).total := by
    unfold monthTotal; rw [hNew]; rfl
  have hSuccNew : monthSuccess months' (r.year, r.month) =
      (touchMonth r mdOld).success := by
    unfold monthSuccess; rw [hNew]; rfl
  have hNaNew : monthNonAscii months' (r.year, r.month) =
      (touchMonth r mdOld).non_ascii := by
    unfold monthNonAscii; rw [hNew]; rfl
  refine ⟨?_, ?_, ?_, ?_, ?_, ?_, ?_, ?_, ?_, hOther, ?_⟩
  · rw [hNew]; rfl
  · rw [hTotNew, hTotalOld, touchMonth_total]
  · rw [hSuccNew, hSuccOld, touchMonth_success]
    by_cases hs : r.status_code / 100 = 2
    · rw [if_pos ((isSuccessful_iff r).mpr hs), if_pos hs]
    · rw [if_neg (fun hb => hs ((isSuccessful_iff r).mp hb)), if_neg hs]
  · intro hs
    have hb := (isSuccessful_iff r).mpr hs
    rw [hLangNew, hLangOld, touchMonth_lang, if_pos hb]
    refine ⟨by simp, by simp, by simp [counterAdd_self], ?_⟩
    intro b hb'
    simp [counterAdd_ne _ hb']
  · intro hs
    have hb : isSuccessful r = false := by
      cases hx : isSuccessful r
      · rfl
      · exact absurd ((isSuccessful_iff r).mp hx) hs
    rw [hLangNew, hLangOld, touchMonth_lang, hb]
    simp
  · intro hna
    rw [hNaNew, hNaOld, touchMonth_non_ascii, if_pos hna]
  · intro hna
    rw [hNaNew, hNaOld, touchMonth_non_ascii, hna]
    simp
  · intro s x hx
    simp [setAdd, hx]
  · intro s x
    by_cases hx : x ∈ s <;> simp [setAdd, hx]
  · intro lang' hl
    have h1 : langState months' (r.year, r.month) lang' =
        (alookup lang' (touchMonth r mdOld).languages).getD
          (newLangData lang') := by
      unfold langState; rw [hNew]
    rw [h1, touchMonth_lang_ne r mdOld hl]
    unfold langState
    rcases hOld with h2 | ⟨h2, _, _, hl0, _⟩
    · rw [h2]
    · rw [h2, hl0]
      simp [alookup]

/-- The concrete record used to witness C1's amended theorem. -/
theorem C1_stats_step_spec_witness :
    (stats_step [] rW).map (fun ms => monthTotal ms (2017, 3)) =
      some (monthTotal [] (2017, 3) + 1) := by
  cases hx : stats_step [] rW with
  | none => exact absurd hx (by decide)
  | some ms' =>
    have h2 := C1_stats_step_spec [] rW ms' hx
    simpa using h2.2.1

/-! ### The accumulator invariants -/

/-- The data-model invariants of one language accumulator: the successful
count is the sum of the histogram's occurrence counts, and the successful
bytes total is the histogram's weighted sum. -/
theorem mem_aupdate {κ β : Type} [DecidableEq κ] {k : κ} {f : β → β}
    {l : List (κ × β)} {p : κ × β} (h : p ∈ aupdate k f l) :
    p ∈ l ∨ ∃ v, (k, v) ∈ l ∧ p = (k, f v) := by
  induction l with
  | nil => simp [aupdate] at h
  | cons q t ih =>
    by_cases h1 : q.1 = k
    · rw [aupdate, if_pos h1] at h
      rcases List.mem_cons.mp h with h2 | h2
      · exact Or.inr ⟨q.2, by simp [← h1, h2]⟩
      · exact Or.inl (List.mem_cons_of_mem q h2)
    · rw [aupdate, if_neg h1] at h
      rcases List.mem_cons.mp h with h2 | h2
      · exact Or.inl (by simp [h2])
      · rcases ih h2 with h3 | ⟨v, hv, hp⟩
        · exact Or.inl (List.mem_cons_of_mem q h3)
        · exact Or.inr ⟨v, List.mem_cons_of_mem q hv, hp⟩

theorem alookup_none_iff {κ β : Type} [DecidableEq κ] {k : κ}
    {l : List (κ × β)} : alookup k l = none ↔ k ∉ l.map Prod.fst := by
  induction l with
  | nil => simp [alookup]
  | cons q t ih =>
    by_cases h1 : q.1 = k
    · simp [alookup, h1]
    · rw [alookup, if_neg h1, ih]
      simp only [List.map_cons, List.mem_cons, not_or]
      exact ⟨fun h2 => ⟨fun hk => h1 hk.symm, h2⟩, fun h2 => h2.2⟩

theorem aupdate_append_fresh {κ β : Type} [DecidableEq κ] {k : κ}
    (f : β → β) (v : β) {l : List (κ × β)} (h : alookup k l = none) :
    aupdate k f (l ++ [(k, v)]) = l ++ [(k, f v)] := by
  induction l with
  | nil => simp [aupdate]
  | cons q t ih =>
    rw [alookup] at h
    by_cases h1 : q.1 = k
    · rw [if_pos h1] at h; exact absurd h (by simp)
    · rw [if_neg h1] at h
      simp only [List.cons_append, aupdate, if_neg h1, List.append_eq]
      rw [ih h]

theorem mem_ensureLang {md : MonthData} {lang : String} {q : String × LangData}
    (h : q ∈ (ensureLang md lang).languages) :
    q ∈ md.languages ∨ q = (lang, newLangData lang) := by
  unfold ensureLang at h
  cases h1 : alookup lang md.languages with
  | none => rw [h1] at h; simpa using h
  | some ld => rw [h1] at h; exact Or.inl h

theorem counterAdd_cons_self (b v : Nat) (t : List (Nat × Nat)) :
    counterAdd ((b, v) :: t) b = (b, v + 1) :: t := by
  simp [counterAdd, alookup, aupdate]

theorem counterAdd_cons_ne {k b : Nat} (h : k ≠ b) (v : Nat)
    (t : List (Nat × Nat)) :
    counterAdd ((k, v) :: t) b = (k, v) :: counterAdd t b := by
  unfold counterAdd
  rw [alookup, if_neg h]
  cases h1 : alookup b t with
  | none => simp
  | some n => simp [aupdate, h]

theorem counterAdd_sum_snd (hist : List (Nat × Nat)) (b : Nat) :
    ((counterAdd hist b).map Prod.snd).sum = (hist.map Prod.snd).sum + 1 := by
  induction hist with
  | nil => simp [counterAdd, alookup]
  | cons q t ih =>
    by_cases h1 : q.1 = b
    · rcases q with ⟨k, v⟩
      subst h1
      rw [counterAdd_cons_self]
      simp only [List.map_cons, List.sum_cons]
      omega
    · rcases q with ⟨k, v⟩
      rw [counterAdd_cons_ne h1]
      simp only [List.map_cons, List.sum_cons, ih]
      omega

theorem counterAdd_sum_mul (hist : List (Nat × Nat)) (b : Nat) :
    ((counterAdd hist b).map (fun p => p.1 * p.2)).sum =
      (hist.map (fun p => p.1 * p.2)).sum + b := by
  induction hist with
  | nil => simp [counterAdd, alookup]
  | cons q t ih =>
    by_cases h1 : q.1 = b
    · rcases q with ⟨k, v⟩
      subst h1
      rw [counterAdd_cons_self]
      simp only [List.map_cons, List.sum_cons, Nat.mul_succ]
      omega
    · rcases q with ⟨k, v⟩
      rw [counterAdd_cons_ne h1]
      simp only [List.map_cons, List.sum_cons, ih]
      omega

theorem langInv_newLangData (lang : String) : langInv (newLangData lang) := by
  simp [langInv, newLangData]

/-- Each member of a month's language dictionary after `touchMonth`: an
entry of the located-or-created dictionary, or — for a successful request —
the updated entry at the record's language. -/
theorem touchMonth_langs_cases (r : LogRecord) (v : MonthData)
    {q : String × LangData} (hq : q ∈ (touchMonth r v).languages) :
    q ∈ (ensureLang v r.language).languages ∨
    (isSuccessful r = true ∧
      ∃ w, (r.language, w) ∈ (ensureLang v r.language).languages ∧
        q = (r.language,
          { name := w.name,
            total_successful_B := w.total_successful_B + r.bytes_served,
            total_successful := w.total_successful + 1,
            bytes_served_successfully :=
              counterAdd w.bytes_served_successfully r.bytes_served })) := by
  unfold touchMonth at hq
  cases hs : isSuccessful r <;> cases hna : hasNonAscii r.file_name <;>
    simp only [hs, hna, if_true, if_false, Bool.false_eq_true] at hq
  · exact Or.inl hq
  · exact Or.inl hq
  · rcases mem_aupdate hq with h | ⟨w, hw, hp⟩
    · exact Or.inl h
    · exact Or.inr ⟨rfl, w, hw, hp⟩
  · rcases mem_aupdate hq with h | ⟨w, hw, hp⟩
    · exact Or.inl h
    · exact Or.inr ⟨rfl, w, hw, hp⟩

/-- The function `touchMonth` preserves the per-language invariants. -/
theorem touchMonth_langInv (r : LogRecord) (v : MonthData)
    (hv : ∀ q ∈ v.languages, langInv q.2) :
    ∀ q ∈ (touchMonth r v).languages, langInv q.2 := by
  have hel : ∀ q ∈ (ensureLang v r.language).languages, langInv q.2 := by
    intro q hq
    rcases mem_ensureLang hq with h | h
    · exact hv q h
    · rw [h]; exact langInv_newLangData _
  intro q hq
  rcases touchMonth_langs_cases r v hq with h | ⟨hs, w, hw, hp⟩
  · exact hel q h
  · obtain ⟨hc, hb⟩ := hel (r.language, w) hw
    dsimp only at hc hb
    rw [hp]
    unfold langInv
    constructor
    · dsimp only
      rw [counterAdd_sum_snd, hc]
    · dsimp only
      rw [counterAdd_sum_mul, hb]

/-- The function `touchMonth` preserves the month invariants. -/
theorem touchMonth_monthInv (r : LogRecord) (v : MonthData)
    (hv : v.success ≤ v.total ∧ ∀ q ∈ v.languages, langInv q.2) :
    monthInv (touchMonth r v) := by
  refine ⟨?_, ?_, touchMonth_langInv r v hv.2⟩
  · rw [touchMonth_total, touchMonth_success]
    have := hv.1
    split <;> omega
  · rw [touchMonth_total]; omega

/-- Each member of the dictionary after a step: an untouched old entry, a
touched old entry at the record's key, or a touched fresh entry at the
record's key (first encounter of the month, with a formattable month). -/
theorem stats_step_mem {ms : List (MonthKey × MonthData)} {r : LogRecord}
    {ms' : List (MonthKey × MonthData)} (h : stats_step ms r = some ms')
    {p : MonthKey × MonthData} (hp : p ∈ ms') :
    p ∈ ms ∨
    (∃ v, (p.1, v) ∈ ms ∧ p.2 = touchMonth r v ∧ p.1 = (r.year, r.month)) ∨
    (p.1 = (r.year, r.month) ∧ alookup p.1 ms = none ∧
      ∃ nm, format_month r.month = some nm ∧
        p.2 = touchMonth r { year := Nat.repr r.year, month := nm,
                             languages := [], non_ascii := [], total := 0,
                             success := 0 }) := by
  unfold stats_step at h
  cases hEM : ensureMonth ms r with
  | none => rw [hEM] at h; simp at h
  | some ms₀ =>
    rw [hEM] at h
    simp at h
    rcases ensureMonth_cases ms r ms₀ hEM with ⟨hne, heq⟩ |
      ⟨hnone, nm, hnm, heq⟩ <;> rw [heq] at h <;> rw [← h] at hp
    · rcases mem_aupdate hp with h1 | ⟨v, hv, hpv⟩
      · exact Or.inl h1
      · exact Or.inr (Or.inl ⟨v, by simp [hpv, hv]⟩)
    · rw [aupdate_append_fresh _ _ hnone] at hp
      rcases List.mem_append.mp hp with h1 | h1
      · exact Or.inl h1
      · simp only [List.mem_singleton] at h1
        refine Or.inr (Or.inr ⟨by simp [h1], by simp [h1, hnone], nm, hnm,
          by simp [h1]⟩)

theorem format_month_le {m : Nat} {nm : String}
    (h : format_month m = some nm) : m ≤ 12 := by
  by_contra hm
  rw [format_month, List.get?_eq_none.mpr (by simp [month_name]; omega)] at h
  exact Option.noConfusion h

/-- The keys after a step: unchanged, or extended by the record's (fresh,
valid-month) key. -/
theorem stats_step_keys {ms : List (MonthKey × MonthData)} {r : LogRecord}
    {ms' : List (MonthKey × MonthData)} (h : stats_step ms r = some ms') :
    ms'.map Prod.fst = ms.map Prod.fst ∨
    (alookup (r.year, r.month) ms = none ∧ r.month ≤ 12 ∧
     ms'.map Prod.fst = ms.map Prod.fst ++ [(r.year, r.month)]) := by
  unfold stats_step at h
  cases hEM : ensureMonth ms r with
  | none => rw [hEM] at h; simp at h
  | some ms₀ =>
    rw [hEM] at h
    simp at h
    rcases ensureMonth_cases ms r ms₀ hEM with ⟨hne, heq⟩ |
      ⟨hnone, nm, hnm, heq⟩ <;> rw [heq] at h
    · exact Or.inl (by rw [← h, aupdate_fst])
    · exact Or.inr ⟨hnone, format_month_le (by simpa using hnm),
        by rw [← h, aupdate_fst]; simp⟩

/-- One step preserves the dictionary invariant. -/
theorem statsInv_step {ms : List (MonthKey × MonthData)} {r : LogRecord}
    {ms' : List (MonthKey × MonthData)} (hInv : statsInv ms)
    (h : stats_step ms r = some ms') : statsInv ms' := by
  constructor
  · intro p hp
    rcases stats_step_mem h hp with h1 | ⟨v, hv, hpv, hpk⟩ |
      ⟨hpk, hno, nm, hnm, hpv⟩
    · exact hInv.1 p h1
    · obtain ⟨⟨hst, _, hlgs⟩, hk⟩ := hInv.1 (p.1, v) hv
      rw [hpv]
      exact ⟨touchMonth_monthInv r v ⟨hst, hlgs⟩, hk⟩
    · rw [hpv, hpk]
      exact ⟨touchMonth_monthInv r _ ⟨Nat.le_refl 0, by simp⟩,
        format_month_le hnm⟩
  · rcases stats_step_keys h with h1 | ⟨h2, _, h3⟩
    · rw [h1]; exact hInv.2
    · rw [h3]
      exact hInv.2.append (List.nodup_singleton _)
        (by simpa [List.disjoint_singleton] using alookup_none_iff.mp h2)

theorem statsInv_nil : statsInv [] := by
  constructor <;> simp

/-- The dictionary invariant holds at every state `_get_stats` reaches. -/
theorem statsInv_fold (records : List LogRecord) :
    ∀ ms ms', statsInv ms → records.foldlM stats_step ms = some ms' →
      statsInv ms' := by
  induction records with
  | nil =>
    intro ms ms' hInv h
    simp [List.foldlM] at h
    rwa [← h]
  | cons r t ih =>
    intro ms ms' hInv h
    rw [List.foldlM_cons] at h
    cases h1 : stats_step ms r with
    | none => rw [h1] at h; simp at h
    | some ms₁ =>
      rw [h1] at h
      exact ih ms₁ ms' (statsInv_step hInv h1) h

theorem get_stats_assoc_inv {records : List LogRecord}
    {ms : List (MonthKey × MonthData)}
    (h : get_stats_assoc records = some ms) : statsInv ms :=
  statsInv_fold records [] ms statsInv_nil h

/-- C3: the invariants named by the spec — the month's successful count
never exceeds its total (and both are nonnegative), and every language's
successful count equals the sum of its histogram's occurrence counts —
hold for the empty accumulator state and are preserved by every individual
accumulation step, hence hold after every record is processed. -/
theorem C3_invariants (ms ms' : List (MonthKey × MonthData)) (r : LogRecord)
    (hInv : ∀ p ∈ ms, (0 ≤ p.2.success ∧ p.2.success ≤ p.2.total) ∧
      ∀ q ∈ p.2.languages, q.2.total_successful =
        (q.2.bytes_served_successfully.map Prod.snd).sum)
    (h : stats_step ms r = some ms') :
    (∀ p ∈ ([] : List (MonthKey × MonthData)),
      (0 ≤ p.2.success ∧ p.2.success ≤ p.2.total) ∧
      ∀ q ∈ p.2.languages, q.2.total_successful =
        (q.2.bytes_served_successfully.map Prod.snd).sum) ∧
    (∀ p ∈ ms', (0 ≤ p.2.success ∧ p.2.success ≤ p.2.total) ∧
      ∀ q ∈ p.2.languages, q.2.total_successful =
        (q.2.bytes_served_successfully.map Prod.snd).sum) := by
  refine ⟨by simp, ?_⟩
  intro p hp
  have touch : ∀ v : MonthData,
      ((0 ≤ v.success ∧ v.success ≤ v.total) ∧
        ∀ q ∈ v.languages, q.2.total_successful =
          (q.2.bytes_served_successfully.map Prod.snd).sum) →
      (0 ≤ (touchMonth r v).success ∧
        (touchMonth r v).success ≤ (touchMonth r v).total) ∧
      ∀ q ∈ (touchMonth r v).languages, q.2.total_successful =
        (q.2.bytes_served_successfully.map Prod.snd).sum := by
    intro v ⟨⟨_, hst⟩, hlgs⟩
    constructor
    · rw [touchMonth_total, touchMonth_success]
      constructor
      · exact Nat.zero_le _
      · split <;> omega
    · -- the count-sum invariant is one half of `langInv`; reuse the
      -- preservation proof with a trivially true second half is not
      -- possible, so redo the membership argument for this half alone
      have hel : ∀ q ∈ (ensureLang v r.language).languages,
          q.2.total_successful =
            (q.2.bytes_served_successfully.map Prod.snd).sum := by
        intro q hq
        rcases mem_ensureLang hq with h1 | h1
        · exact hlgs q h1
        · rw [h1]; simp [newLangData]
      intro q hq
      rcases touchMonth_langs_cases r v hq with h1 | ⟨hs, w, hw, hpw⟩
      · exact hel q h1
      · have hc := hel (r.language, w) hw
        dsimp only at hc
        rw [hpw]
        dsimp only
        rw [counterAdd_sum_snd, hc]
  rcases stats_step_mem h hp with h1 | ⟨v, hv, hpv, hpk⟩ |
    ⟨hpk, hno, nm, hnm, hpv⟩
  · exact hInv p h1
  · rw [hpv]; exact touch v (hInv (p.1, v) hv)
  · rw [hpv]; exact touch _ (by simp)

/-- The concrete month dictionary used to witness C3: the state reached by
one accumulation step on `rW` from the empty state. -/
theorem C3_invariants_witness :
    (∀ p ∈ ([] : List (MonthKey × MonthData)),
      (0 ≤ p.2.success ∧ p.2.success ≤ p.2.total) ∧
      ∀ q ∈ p.2.languages, q.2.total_successful =
        (q.2.bytes_served_successfully.map Prod.snd).sum) ∧
    ∀ p ∈ msW,
      (0 ≤ p.2.success ∧ p.2.success ≤ p.2.total) ∧
      ∀ q ∈ p.2.languages, q.2.total_successful =
        (q.2.bytes_served_successfully.map Prod.snd).sum :=
  C3_invariants [] msW
    { year := 2017, month := 3, language := "Py", file_name := "f.txt",
      status_code := 204, bytes_served := 7 }
    (by simp) (by rfl)

/-! ### C7: chronological ordering of the report -/

theorem reshape_month_fields {tc : Nat} {md : MonthData} {rm : RMonth}
    (h : reshape_month tc md = some rm) :
    rm.year = md.year ∧ rm.month = md.month ∧ rm.total = md.total ∧
    rm.success = md.success ∧
    rm.percent_success = (md.success * 100 : ℚ) / md.total ∧
    rm.non_ascii = md.non_ascii ∧ md.total ≠ 0 ∧
    reshape_langs (ranked_langs md tc) = some rm.languages := by
  unfold reshape_month at h
  by_cases h0 : md.total = 0
  · rw [if_pos h0] at h; exact absurd h (by simp)
  · rw [if_neg h0] at h
    cases h1 : reshape_langs (ranked_langs md tc) with
    | none => rw [h1] at h; exact absurd h (by simp)
    | some langs =>
      rw [h1] at h
      have h' : some (⟨md.year, md.month, md.non_ascii, md.total, md.success,
          (md.success * 100 : ℚ) / md.total, langs⟩ : RMonth) = some rm := h
      injection h' with h2
      exact ⟨(congrArg RMonth.year h2).symm, (congrArg RMonth.month h2).symm,
        (congrArg RMonth.total h2).symm, (congrArg RMonth.success h2).symm,
        (congrArg RMonth.percent_success h2).symm,
        (congrArg RMonth.non_ascii h2).symm, h0,
        congrArg (fun x => some x.languages) h2⟩

/-- The function `_reshape_stats` reshapes the month objects in place, in order. -/
theorem reshape_stats_pairs :
    ∀ (stats : List MonthData) (tc : Nat) (rms : List RMonth),
      reshape_stats stats tc = some rms →
      rms.map (fun rm => (rm.year, rm.month)) =
        stats.map (fun md => (md.year, md.month)) := by
  intro stats
  induction stats with
  | nil =>
    intro tc rms h
    have h' : some ([] : List RMonth) = some rms := h
    injection h' with h2
    rw [← h2]; rfl
  | cons md t ih =>
    intro tc rms h
    rw [reshape_stats] at h
    cases h1 : reshape_month tc md with
    | none => rw [h1] at h; exact absurd h (by simp)
    | some rm =>
      cases h2 : reshape_stats t tc with
      | none => rw [h1, h2] at h; exact absurd h (by simp)
      | some rt =>
        rw [h1, h2] at h
        simp only [Option.some.injEq] at h
        rw [← h]
        simp only [List.map_cons, ih tc rt h2, List.cons.injEq, and_true]
        rw [(reshape_month_fields h1).1, (reshape_month_fields h1).2.1]

/-- C7: the month list produced by `_get_stats` is the dictionary's
values sorted ascending by MonthKey — year first, then month; with the
distinct keys this ordering is strictly ascending — for every arrival order
of the records, and `_reshape_stats` keeps the report in that order. -/
theorem C7_months_sorted (records : List LogRecord)
    (ms : List (MonthKey × MonthData)) (h : get_stats_assoc records = some ms) :
    get_stats records =
      some ((List.insertionSort monthEntryLe ms).map Prod.snd) ∧
    List.Pairwise monthKeyLe
      ((List.insertionSort monthEntryLe ms).map Prod.fst) ∧
    List.Pairwise (fun a b : MonthKey => a.1 < b.1 ∨ (a.1 = b.1 ∧ a.2 < b.2))
      ((List.insertionSort monthEntryLe ms).map Prod.fst) ∧
    ∀ (tc : Nat) (rms : List RMonth),
      reshape_stats ((List.insertionSort monthEntryLe ms).map Prod.snd) tc =
        some rms →
      rms.map (fun rm => (rm.year, rm.month)) =
        ((List.insertionSort monthEntryLe ms).map Prod.snd).map
          (fun md => (md.year, md.month)) := by
  have hsorted : List.Pairwise monthEntryLe
      (List.insertionSort monthEntryLe ms) :=
    List.sorted_insertionSort monthEntryLe ms
  have hkeysLe : List.Pairwise monthKeyLe
      ((List.insertionSort monthEntryLe ms).map Prod.fst) :=
    List.Pairwise.map Prod.fst (fun a b hab => hab) hsorted
  have hperm : List.Perm ((List.insertionSort monthEntryLe ms).map Prod.fst)
      (ms.map Prod.fst) :=
    (List.perm_insertionSort monthEntryLe ms).map Prod.fst
  have hnd : ((List.insertionSort monthEntryLe ms).map Prod.fst).Nodup :=
    hperm.symm.nodup (get_stats_assoc_inv h).2
  refine ⟨by rw [get_stats, h]; rfl, hkeysLe, ?_,
    fun tc rms hr => reshape_stats_pairs _ tc rms hr⟩
  refine (hkeysLe.and hnd).imp ?_
  rintro a b ⟨hle, hne⟩
  rcases hle with h1 | ⟨h1, h2⟩
  · exact Or.inl h1
  · exact Or.inr ⟨h1, lt_of_le_of_ne h2
      (fun he => hne (Prod.ext_iff.mpr ⟨h1, he⟩))⟩

/-- The records and the accumulator state used to witness C7: two months
arriving in reverse chronological order. -/
theorem C7_months_sorted_witness :
    get_stats recsW7 =
      some ((List.insertionSort monthEntryLe msW7).map Prod.snd) ∧
    List.Pairwise monthKeyLe
      ((List.insertionSort monthEntryLe msW7).map Prod.fst) :=
  (fun h => ⟨h.1, h.2.1⟩) (C7_months_sorted recsW7 msW7 (by rfl))

/-! ### C6: the reshape-time assertion and the percentage bounds -/

theorem elements_length (hist : List (Nat × Nat)) :
    (elements hist).length = (hist.map Prod.snd).sum := by
  induction hist with
  | nil => rfl
  | cons p t ih =>
    have h1 : elements (p :: t) = List.replicate p.2 p.1 ++ elements t := by
      simp [elements]
    rw [h1, List.length_append, List.length_replicate, ih, List.map_cons,
      List.sum_cons]

theorem pstdevSq_ne_none {data : List ℚ} {mu : ℚ} (h : data.length ≠ 0) :
    pstdevSq data mu ≠ none := by
  unfold pstdevSq
  rw [if_neg h]
  simp

/-- A language accumulator whose successful count matches its histogram
never makes `reshape_lang` raise. -/
theorem reshape_lang_ne_none {ld : LangData}
    (hc : ld.total_successful =
      (ld.bytes_served_successfully.map Prod.snd).sum) :
    reshape_lang ld ≠ none := by
  rw [reshape_lang_eq]
  by_cases h0 : ld.total_successful ≠ 0
  · rw [if_pos h0]
    have hlen : (dataMB ld).length ≠ 0 := by
      rw [dataMB, List.length_map, elements_length]
      omega
    cases hps : pstdevSq (dataMB ld) (codeMean ld) with
    | none => exact absurd hps (pstdevSq_ne_none hlen)
    | some v => simp
  · rw [if_neg h0]
    simp

theorem reshape_langs_ne_none {l : List LangData}
    (hc : ∀ ld ∈ l, ld.total_successful =
      (ld.bytes_served_successfully.map Prod.snd).sum) :
    reshape_langs l ≠ none := by
  induction l with
  | nil => simp [reshape_langs]
  | cons ld t ih =>
    rw [reshape_langs]
    cases h1 : reshape_lang ld with
    | none => exact absurd h1 (reshape_lang_ne_none (hc ld (by simp)))
    | some rl =>
      cases h2 : reshape_langs t with
      | none => exact absurd h2 (ih (fun x hx => hc x (by simp [hx])))
      | some rt => simp

/-- Every language retained by the ranking step is one of the month's
language accumulators. -/
theorem ranked_langs_subset {md : MonthData} {tc : Nat} {ld : LangData}
    (h : ld ∈ ranked_langs md tc) : ∃ q ∈ md.languages, ld = q.2 := by
  unfold ranked_langs at h
  have h1 : ld ∈ List.insertionSort langRankLe (md.languages.map Prod.snd) :=
    List.take_subset tc _ h
  rw [List.mem_insertionSort] at h1
  obtain ⟨q, hq, hql⟩ := List.mem_map.mp h1
  exact ⟨q, hq, hql.symm⟩

/-- C6: for every month object handed to `_reshape_stats` by
`_get_stats`, the total request count is nonzero — the `assert` holds
because a month entry exists only if at least one record incremented it —
so `percent_success = successful_requests * 100 / total_requests` is
computed without division by zero, and it lies in [0, 100]. -/
theorem C6_percent_success (records : List LogRecord)
    (ms : List (MonthKey × MonthData)) (mss : List MonthData) (tc : Nat)
    (h : get_stats_assoc records = some ms)
    (hg : get_stats records = some mss) :
    ∀ md ∈ mss, md.total ≠ 0 ∧
      ∃ rm, reshape_month tc md = some rm ∧
        rm.percent_success = (md.success * 100 : ℚ) / md.total ∧
        0 ≤ rm.percent_success ∧ rm.percent_success ≤ 100 := by
  rw [get_stats, h] at hg
  have hg' : some ((List.insertionSort monthEntryLe ms).map Prod.snd) =
      some mss := hg
  injection hg' with hg2
  intro md hmd
  rw [← hg2] at hmd
  obtain ⟨p, hp, hpmd⟩ := List.mem_map.mp hmd
  rw [List.mem_insertionSort] at hp
  obtain ⟨⟨hst, hpos, hlgs⟩, _⟩ := (get_stats_assoc_inv h).1 p hp
  rw [hpmd] at hst hpos hlgs
  have h0 : md.total ≠ 0 := by omega
  refine ⟨h0, ?_⟩
  have hlangs : reshape_langs (ranked_langs md tc) ≠ none := by
    refine reshape_langs_ne_none ?_
    intro ld hld
    obtain ⟨q, hq, hqe⟩ := ranked_langs_subset hld
    rw [hqe]
    exact (hlgs q hq).1
  cases h1 : reshape_langs (ranked_langs md tc) with
  | none => exact absurd h1 hlangs
  | some langs =>
    refine ⟨{ year := md.year, month := md.month, non_ascii := md.non_ascii,
              total := md.total, success := md.success,
              percent_success := (md.success * 100 : ℚ) / md.total,
              languages := langs }, ?_, rfl, ?_, ?_⟩
    · unfold reshape_month
      rw [if_neg h0, h1]
      rfl
    · have ht : (0 : ℚ) < md.total := by
        exact_mod_cast Nat.pos_of_ne_zero h0
      positivity
    · have ht : (0 : ℚ) < md.total := by
        exact_mod_cast Nat.pos_of_ne_zero h0
      rw [div_le_iff₀ ht]
      have hsq : (md.success : ℚ) ≤ md.total := by exact_mod_cast hst
      linarith

/-- Witness for C6 at a one-record run, instantiated at its single month. -/
theorem C6_percent_success_witness :
    mdW.total ≠ 0 ∧
      ∃ rm, reshape_month 5 mdW = some rm ∧
        rm.percent_success = (mdW.success * 100 : ℚ) / mdW.total ∧
        0 ≤ rm.percent_success ∧ rm.percent_success ≤ 100 :=
  C6_percent_success [rW] msW [mdW] 5 (by rfl) (by rfl) mdW
    (List.mem_singleton.mpr rfl)

/-! ### C4: the top-N language ranking -/

theorem orderedInsert_filter_key (x : LangData) (l : List LangData) (k : Nat) :
    (List.orderedInsert langRankLe x l).filter
        (fun ld => ld.total_successful_B == k) =
      if x.total_successful_B = k then
        x :: l.filter (fun ld => ld.total_successful_B == k)
      else l.filter (fun ld => ld.total_successful_B == k) := by
  have hbeq : ∀ (a b : Nat), a = b → (a == b) = true := fun a b h =>
    beq_iff_eq.mpr h
  have hbne : ∀ (a b : Nat), a ≠ b → (a == b) = false := fun a b h => by
    simp [h]
  induction l with
  | nil =>
    by_cases h : x.total_successful_B = k
    · simp [List.orderedInsert, List.filter, hbeq _ _ h, h]
    · simp [List.orderedInsert, List.filter, hbne _ _ h, h]
  | cons y t ih =>
    rw [List.orderedInsert]
    by_cases hr : langRankLe x y
    · rw [if_pos hr]
      by_cases h : x.total_successful_B = k
      · simp [List.filter_cons, hbeq _ _ h, h]
      · simp [List.filter_cons, hbne _ _ h, h]
    · rw [if_neg hr]
      unfold langRankLe at hr
      by_cases hy : y.total_successful_B = k
      · by_cases h : x.total_successful_B = k
        · exact absurd (by omega : y.total_successful_B ≤
            x.total_successful_B) hr
        · simp [List.filter_cons, hbeq _ _ hy, hy, ih, h]
      · by_cases h : x.total_successful_B = k <;>
          simp [List.filter_cons, hbne _ _ hy, hy, ih, h]

/-- The ranking sort is stable: for every byte-total value, the languages
carrying it appear in the sorted list in exactly their encounter order. -/
theorem insertionSort_filter_key (l : List LangData) (k : Nat) :
    (List.insertionSort langRankLe l).filter
        (fun ld => ld.total_successful_B == k) =
      l.filter (fun ld => ld.total_successful_B == k) := by
  induction l with
  | nil => rfl
  | cons x t ih =>
    rw [List.insertionSort, orderedInsert_filter_key]
    by_cases h : x.total_successful_B = k <;>
      simp [List.filter_cons, h, ih, beq_iff_eq]

theorem reshape_langs_length :
    ∀ {l : List LangData} {rl : List RLang},
      reshape_langs l = some rl → rl.length = l.length := by
  intro l
  induction l with
  | nil =>
    intro rl h
    have h' : some ([] : List RLang) = some rl := h
    injection h' with h2
    rw [← h2]
    rfl
  | cons ld t ih =>
    intro rl h
    rw [reshape_langs] at h
    cases h1 : reshape_lang ld with
    | none => rw [h1] at h; exact absurd h (by simp)
    | some x =>
      cases h2 : reshape_langs t with
      | none => rw [h1, h2] at h; exact absurd h (by simp)
      | some xt =>
        rw [h1, h2] at h
        injection h with h3
        rw [← h3, List.length_cons, List.length_cons, ih h2]

/-- The six-language scenario of the spec: strictly decreasing byte totals,
`top_count = 5`. -/
theorem C4_ranking (md : MonthData) (tc : Nat) :
    (ranked_langs md tc).length ≤ tc ∧
    List.Pairwise (fun a b : LangData =>
      b.total_successful_B ≤ a.total_successful_B) (ranked_langs md tc) ∧
    (∀ k, (List.insertionSort langRankLe (md.languages.map Prod.snd)).filter
        (fun ld => ld.total_successful_B == k) =
      (md.languages.map Prod.snd).filter
        (fun ld => ld.total_successful_B == k)) ∧
    (∀ rm, reshape_month tc md = some rm → rm.languages.length ≤ tc) ∧
    (ranked_langs md6 5).map LangData.name = ["a", "b", "c", "d", "e"] ∧
    (∀ ld ∈ ranked_langs md6 5, ld.name ≠ "f") := by
  refine ⟨List.length_take_le tc _, ?_, fun k => insertionSort_filter_key _ k,
    ?_, by decide, by decide⟩
  · exact List.Pairwise.sublist (List.take_sublist tc _)
      (List.sorted_insertionSort langRankLe (md.languages.map Prod.snd))
  · intro rm hrm
    have h1 := (reshape_month_fields hrm).2.2.2.2.2.2.2
    rw [reshape_langs_length h1]
    exact List.length_take_le tc _

/-- A month with no languages and its report object, used to witness C4
(the rational fields are written as the very expressions the reshaper
forms, so the equation holds by unfolding). -/
theorem C4_ranking_witness :
    (ranked_langs mdW 5).length ≤ 5 ∧ rm0.languages.length ≤ 5 :=
  ⟨(C4_ranking mdW 5).1, (C4_ranking md0 5).2.2.2.1 rm0 rfl⟩

/-! ### C5: per-language means and standard deviations -/

/-- The population variance of a data set — the spec-side notion ("divide
by the full count N, not N−1"): the mean of the squared deviations from the
data's own mean.  The report's `stddev_MB` is the nonnegative square root
of this value. -/
theorem elements_sum (hist : List (Nat × Nat)) :
    (elements hist).sum = (hist.map (fun p => p.1 * p.2)).sum := by
  induction hist with
  | nil => rfl
  | cons p t ih =>
    have h1 : elements (p :: t) = List.replicate p.2 p.1 ++ elements t := by
      simp [elements]
    rw [h1, List.sum_append, List.sum_replicate, smul_eq_mul, ih,
      List.map_cons, List.sum_cons, Nat.mul_comm]

theorem sum_map_castQ (l : List Nat) :
    (l.map (fun b : Nat => (b : ℚ))).sum = ((l.sum : Nat) : ℚ) := by
  induction l with
  | nil => simp
  | cons x t ih =>
    simp only [List.map_cons, List.sum_cons, ih, Nat.cast_add]

theorem sum_map_divQ (l : List Nat) (c : ℚ) :
    (l.map (fun b : Nat => (b : ℚ) / c)).sum =
      (l.map (fun b : Nat => (b : ℚ))).sum / c := by
  induction l with
  | nil => simp
  | cons x t ih => simp [ih, add_div]

/-- Under the histogram invariants, the `mu` the source passes to
`statistics.pstdev` is the true mean of the data set it passes. -/
theorem codeMean_eq_mean (ld : LangData)
    (hc : ld.total_successful =
      (ld.bytes_served_successfully.map Prod.snd).sum)
    (hb : ld.total_successful_B =
      (ld.bytes_served_successfully.map (fun p => p.1 * p.2)).sum) :
    codeMean ld = (dataMB ld).sum / (dataMB ld).length := by
  have hlen : (dataMB ld).length = ld.total_successful := by
    rw [dataMB, List.length_map, elements_length, ← hc]
  have hsum : (dataMB ld).sum = (ld.total_successful_B : ℚ) / mbQ := by
    rw [dataMB, sum_map_divQ, sum_map_castQ, elements_sum, ← hb]
  rw [hlen, hsum, codeMean, div_right_comm]

/-- C5: for every language accumulator satisfying the histogram
invariants (as all accumulators produced by `_get_stats` do): `total_GB`
always equals the successful-bytes total divided by 1e9; with zero
successful requests both `mean_MB` and the standard deviation are null —
no division by zero is performed (and, floats being modelled exactly, no
NaN can arise); with a nonzero count, `mean_MB` equals
`successful_bytes_total / successful_count / 1e6` and the reported
(squared) standard deviation is exactly the population variance — squared
deviations from the data's own mean, divided by N — of the per-request
byte counts in megabytes reconstructed from the histogram. -/
theorem C5_language_stats (ld : LangData)
    (hc : ld.total_successful =
      (ld.bytes_served_successfully.map Prod.snd).sum)
    (hb : ld.total_successful_B =
      (ld.bytes_served_successfully.map (fun p => p.1 * p.2)).sum) :
    ∃ rl, reshape_lang ld = some rl ∧
      rl.total_GB = (ld.total_successful_B : ℚ) / gbQ ∧
      (ld.total_successful = 0 → rl.mean_MB = none ∧ rl.stddevSq_MB = none) ∧
      (ld.total_successful ≠ 0 →
        rl.mean_MB = some ((ld.total_successful_B : ℚ) /
          ld.total_successful / mbQ) ∧
        rl.stddevSq_MB = some (populationVariance (dataMB ld))) := by
  by_cases h0 : ld.total_successful = 0
  · refine ⟨{ name := ld.name, mean_MB := none, stddevSq_MB := none,
              total_GB := (ld.total_successful_B : ℚ) / gbQ }, ?_, rfl,
      fun _ => ⟨rfl, rfl⟩, fun hne => absurd h0 hne⟩
    rw [reshape_lang_eq, if_neg (by omega)]
  · have hlen : (dataMB ld).length = ld.total_successful := by
      rw [dataMB, List.length_map, elements_length, ← hc]
    have hlen0 : (dataMB ld).length ≠ 0 := by omega
    have hps : pstdevSq (dataMB ld) (codeMean ld) =
        some ((((dataMB ld).map
          (fun x : ℚ => (x - codeMean ld) ^ 2)).sum : ℚ) /
            ((dataMB ld).length : ℚ)) := by
      unfold pstdevSq
      rw [if_neg hlen0]
    have hvar : ((((dataMB ld).map
        (fun x : ℚ => (x - codeMean ld) ^ 2)).sum : ℚ) /
          ((dataMB ld).length : ℚ)) = populationVariance (dataMB ld) := by
      rw [populationVariance, ← codeMean_eq_mean ld hc hb]
    refine ⟨{ name := ld.name, mean_MB := some (codeMean ld),
              stddevSq_MB := some (populationVariance (dataMB ld)),
              total_GB := (ld.total_successful_B : ℚ) / gbQ }, ?_, rfl,
      fun he => absurd he h0, fun _ => ⟨rfl, rfl⟩⟩
    rw [reshape_lang_eq, if_pos h0, hps, hvar]
    rfl

/-- The language accumulator used to witness C5: two successful requests of
10 and 20 bytes. -/
theorem C5_language_stats_witness :
    ldW5.total_successful =
      (ldW5.bytes_served_successfully.map Prod.snd).sum ∧
    ldW5.total_successful_B =
      (ldW5.bytes_served_successfully.map (fun p => p.1 * p.2)).sum ∧
    (reshape_lang ldW5).map RLang.total_GB =
      some ((ldW5.total_successful_B : ℚ) / gbQ) := by
  obtain ⟨rl, h1, h2, _, _⟩ := C5_language_stats ldW5 (by decide) (by decide)
  refine ⟨by decide, by decide, ?_⟩
  rw [h1]
  simpa using h2

/-! ### The matcher's capture invariant

Along every successful run of the matcher, each group of the pattern ends
up captured, the numeric groups as nonempty digit runs (each quantifier
only ever consumes characters of its class). -/

/-- A well-formed captured word for a group: nonempty, and all digits when
the group is numeric. -/
theorem get_set_self (caps : Caps) (g : GName) (w : List Char) :
    (caps.set (some g) w).get g = some w := by
  cases g <;> rfl

theorem get_set_ne (caps : Caps) {g g' : GName} (h : g ≠ g')
    (w : List Char) : (caps.set (some g') w).get g = caps.get g := by
  cases g <;> cases g' <;> first | rfl | exact absurd rfl h

theorem orElse_cases {α : Type} {a : Option α} {f : Unit → Option α}
    {v : α} (h : Option.orElse a f = some v) :
    a = some v ∨ (a = none ∧ f () = some v) := by
  cases a with
  | none => exact Or.inr ⟨rfl, h⟩
  | some x => exact Or.inl h

/-- A digit-class character is a digit (and `.` accepts anything but a
newline). -/
theorem CC_mem_digit {cc : CC} {c : Char} (h : CC.mem cc c = true)
    (hd : cc = CC.digit) : c.isDigit = true := by
  rw [hd] at h
  exact h

theorem capInv_tail {g : GName} {t : Tok} {rest : List Tok} {caps : Caps}
    (h : capInv g (t :: rest) caps) (hnp : ¬ capPending g t) :
    capInv g rest caps := by
  obtain ⟨hAll, hDis⟩ := h
  refine ⟨fun x hx => hAll x (List.mem_cons_of_mem t hx), ?_⟩
  rcases hDis with h1 | ⟨x, hx, hp⟩
  · exact Or.inl h1
  · rcases List.mem_cons.mp hx with rfl | hx'
    · exact absurd hp hnp
    · exact Or.inr ⟨x, hx', hp⟩

theorem capInv_plus_start {g : GName} {cc : CC} {greedy : Bool}
    {cap : Option GName} {rest : List Tok} {caps : Caps} {c : Char}
    (h : capInv g (.plus cc greedy cap :: rest) caps)
    (hmem : CC.mem cc c = true) :
    capInv g (.plusAcc cc greedy cap [c] :: rest) caps := by
  obtain ⟨hAll, hDis⟩ := h
  constructor
  · intro t ht
    rcases List.mem_cons.mp ht with rfl | ht'
    · intro hcap
      have hplus := hAll (.plus cc greedy cap) (by simp) hcap
      refine ⟨by simp, fun hnum => ⟨hplus hnum, ?_⟩⟩
      intro x hx
      rw [List.mem_singleton] at hx
      rw [hx]
      exact CC_mem_digit hmem (hplus hnum)
    · exact hAll t (List.mem_cons_of_mem _ ht')
  · rcases hDis with h1 | ⟨x, hx, hp⟩
    · exact Or.inl h1
    · rcases List.mem_cons.mp hx with rfl | hx'
      · exact Or.inr ⟨.plusAcc cc greedy cap [c], by simp, hp⟩
      · exact Or.inr ⟨x, List.mem_cons_of_mem _ hx', hp⟩

theorem capInv_plusAcc_ext {g : GName} {cc : CC} {greedy : Bool}
    {cap : Option GName} {acc : List Char} {rest : List Tok} {caps : Caps}
    {c : Char} (h : capInv g (.plusAcc cc greedy cap acc :: rest) caps)
    (hmem : CC.mem cc c = true) :
    capInv g (.plusAcc cc greedy cap (c :: acc) :: rest) caps := by
  obtain ⟨hAll, hDis⟩ := h
  constructor
  · intro t ht
    rcases List.mem_cons.mp ht with rfl | ht'
    · intro hcap
      have hold := hAll (.plusAcc cc greedy cap acc) (by simp) hcap
      refine ⟨by simp, fun hnum => ⟨(hold.2 hnum).1, ?_⟩⟩
      intro x hx
      rcases List.mem_cons.mp hx with rfl | hx'
      · exact CC_mem_digit hmem (hold.2 hnum).1
      · exact (hold.2 hnum).2 x hx'
    · exact hAll t (List.mem_cons_of_mem _ ht')
  · rcases hDis with h1 | ⟨x, hx, hp⟩
    · exact Or.inl h1
    · rcases List.mem_cons.mp hx with rfl | hx'
      · exact Or.inr ⟨.plusAcc cc greedy cap (c :: acc), by simp, hp⟩
      · exact Or.inr ⟨x, List.mem_cons_of_mem _ hx', hp⟩

theorem capInv_plusAcc_stop {g : GName} {cc : CC} {greedy : Bool}
    {cap : Option GName} {acc : List Char} {rest : List Tok} {caps : Caps}
    (h : capInv g (.plusAcc cc greedy cap acc :: rest) caps) :
    capInv g rest (caps.set cap acc.reverse) := by
  obtain ⟨hAll, hDis⟩ := h
  have hAllRest : ∀ t ∈ rest, capturesOK g t :=
    fun x hx => hAll x (List.mem_cons_of_mem _ hx)
  cases cap with
  | none => exact ⟨hAllRest, by
      rcases hDis with h1 | ⟨x, hx, hp⟩
      · exact Or.inl h1
      · rcases List.mem_cons.mp hx with rfl | hx'
        · exact absurd hp (by simp [capPending])
        · exact Or.inr ⟨x, hx', hp⟩⟩
  | some g' =>
    by_cases hg : g = g'
    · subst hg
      refine ⟨hAllRest, Or.inl ?_⟩
      have hold := hAll (.plusAcc cc greedy (some g) acc) (by simp) rfl
      rw [get_set_self]
      refine ⟨by simp [hold.1], fun hnum => ?_⟩
      intro c hc
      rw [List.mem_reverse] at hc
      exact (hold.2 hnum).2 c hc
    · refine ⟨hAllRest, ?_⟩
      rw [get_set_ne _ hg]
      rcases hDis with h1 | ⟨x, hx, hp⟩
      · exact Or.inl h1
      · rcases List.mem_cons.mp hx with rfl | hx'
        · exact absurd hp (by
            simp only [capPending, Option.some.injEq]
            exact fun he => hg he.symm)
        · exact Or.inr ⟨x, hx', hp⟩

/-- Along every successful run of the matcher, the invariant yields a well
formed final capture. -/
theorem mrun_capInv (g : GName) :
    ∀ (fuel : Nat) (toks : List Tok) (input : List Char) (caps : Caps)
      (out : Caps), capInv g toks caps →
      mrun fuel toks input caps = some out →
      goodCaps g (out.get g) := by
  intro fuel
  induction fuel with
  | zero =>
    intro toks input caps out hInv h
    exact Option.noConfusion h
  | succ fuel ih =>
    intro toks input caps out hInv h
    cases toks with
    | nil =>
      have h' : (if atEnd input = true then some caps else none) = some out :=
        h
      by_cases he : atEnd input = true
      · rw [if_pos he] at h'
        injection h' with h2
        rw [← h2]
        rcases hInv.2 with h1 | ⟨x, hx, _⟩
        · exact h1
        · exact absurd hx (List.not_mem_nil x)
      · rw [if_neg he] at h'
        exact Option.noConfusion h'
    | cons t rest =>
      cases t with
      | lit c =>
        cases input with
        | nil => exact Option.noConfusion h
        | cons c' input' =>
          have h' : (if (c' == c) = true then mrun fuel rest input' caps
              else none) = some out := h
          by_cases hc : (c' == c) = true
          · rw [if_pos hc] at h'
            exact ih rest input' caps out
              (capInv_tail hInv (by simp [capPending])) h'
          · rw [if_neg hc] at h'
            exact Option.noConfusion h'
      | plus cc greedy cap =>
        cases input with
        | nil => exact Option.noConfusion h
        | cons c input' =>
          have h' : (if CC.mem cc c = true then
              mrun fuel (.plusAcc cc greedy cap [c] :: rest) input' caps
              else none) = some out := h
          by_cases hc : CC.mem cc c = true
          · rw [if_pos hc] at h'
            exact ih _ input' caps out (capInv_plus_start hInv hc) h'
          · rw [if_neg hc] at h'
            exact Option.noConfusion h'
      | plusAcc cc greedy cap acc =>
        have hext : ∀ (c : Char) (input' : List Char) (out' : Caps),
            (if CC.mem cc c = true then
               mrun fuel (.plusAcc cc greedy cap (c :: acc) :: rest)
                 input' caps
             else none) = some out' →
            goodCaps g (out'.get g) := by
          intro c input' out' hE
          by_cases hc : CC.mem cc c = true
          · rw [if_pos hc] at hE
            exact ih _ input' caps out' (capInv_plusAcc_ext hInv hc) hE
          · rw [if_neg hc] at hE
            exact Option.noConfusion hE
        have hstop : ∀ (out' : Caps),
            mrun fuel rest input (caps.set cap acc.reverse) = some out' →
            goodCaps g (out'.get g) := by
          intro out' hS
          exact ih rest input _ out' (capInv_plusAcc_stop hInv) hS
        cases greedy with
        | true =>
          rcases orElse_cases h with h1 | ⟨_, h2⟩
          · cases input with
            | nil => exact Option.noConfusion h1
            | cons c input' => exact hext c input' out h1
          · exact hstop out h2
        | false =>
          rcases orElse_cases h with h1 | ⟨_, h2⟩
          · exact hstop out h1
          · cases input with
            | nil => exact Option.noConfusion h2
            | cons c input' => exact hext c input' out h2

/-- Every group of a successful match of `log_record_re` is captured, the
numeric ones as nonempty digit runs. -/
theorem log_record_match_groups {line : String} {caps : Caps}
    (h : log_record_match line = some caps) :
    ∀ g, goodCaps g (caps.get g) := by
  intro g
  refine mrun_capInv g _ logToks line.data {} caps ?_ h
  cases g <;> decide

theorem goodCaps_some {g : GName} {o : Option (List Char)}
    (h : goodCaps g o) : ∃ w, o = some w ∧ wordOK g w := by
  cases o with
  | none => exact h.elim
  | some w => exact ⟨w, rfl, h⟩

theorem intOfGroup_some {g : GName} {w : List Char}
    (hnum : GName.isNumeric g = true) (hw : wordOK g w) :
    intOfGroup w = some (digitsToNat w) := by
  unfold intOfGroup
  rw [if_pos ⟨hw.1, List.all_eq_true.mpr (fun c hc => hw.2 hnum c hc)⟩]

/-- Any line matched by the pattern parses into a complete record built
from its captures: the numeric groups convert, and unescaping the file
name never fails. -/
theorem parse_of_match (fp : String) (ln : Nat) {line : String}
    {caps : Caps} (h : log_record_match line = some caps) :
    ∃ ys ms ss bs lang fn,
      caps.year = some ys ∧ caps.month = some ms ∧
      caps.status_code = some ss ∧ caps.bytes_served = some bs ∧
      caps.language = some lang ∧ caps.file_name = some fn ∧
      parse_log_line fp ln line = .record
        { year := digitsToNat ys, month := digitsToNat ms,
          language := String.mk lang,
          file_name := String.mk (unescape fn),
          status_code := digitsToNat ss, bytes_served := digitsToNat bs } := by
  have hg := log_record_match_groups h
  obtain ⟨ys, hy, hyw⟩ := goodCaps_some (hg .year)
  obtain ⟨ms, hm, hmw⟩ := goodCaps_some (hg .month)
  obtain ⟨ss, hs, hsw⟩ := goodCaps_some (hg .status_code)
  obtain ⟨bs, hb, hbw⟩ := goodCaps_some (hg .bytes_served)
  obtain ⟨lang, hl, _⟩ := goodCaps_some (hg .language)
  obtain ⟨fn, hf, _⟩ := goodCaps_some (hg .file_name)
  refine ⟨ys, ms, ss, bs, lang, fn, hy, hm, hs, hb, hl, hf, ?_⟩
  have hy' : caps.year = some ys := hy
  have hm' : caps.month = some ms := hm
  have hs' : caps.status_code = some ss := hs
  have hb' : caps.bytes_served = some bs := hb
  have hl' : caps.language = some lang := hl
  have hf' : caps.file_name = some fn := hf
  unfold parse_log_line
  rw [h]
  dsimp only
  rw [hy', hm', hs', hb', hl', hf']
  dsimp only
  rw [@intOfGroup_some GName.year ys rfl hyw,
    @intOfGroup_some GName.month ms rfl hmw,
    @intOfGroup_some GName.status_code ss rfl hsw,
    @intOfGroup_some GName.bytes_served bs rfl hbw]

/-- Every line is parsed into a record or into the error carrying the
given file path and line number — nothing else. -/
theorem parse_cases (fp : String) (ln : Nat) (line : String) :
    (∃ rec, parse_log_line fp ln line = .record rec) ∨
    parse_log_line fp ln line = .error fp ln := by
  unfold parse_log_line
  cases log_record_match line with
  | none => exact Or.inr rfl
  | some caps =>
    dsimp only
    cases caps.year with
    | none => exact Or.inr rfl
    | some ys =>
    cases caps.month with
    | none => exact Or.inr rfl
    | some ms =>
    cases caps.status_code with
    | none => exact Or.inr rfl
    | some ss =>
    cases caps.bytes_served with
    | none => exact Or.inr rfl
    | some bs =>
    cases caps.language with
    | none => exact Or.inr rfl
    | some lang =>
    cases caps.file_name with
    | none => exact Or.inr rfl
    | some fn =>
    dsimp only
    cases intOfGroup ys with
    | none => exact Or.inr rfl
    | some y =>
    cases intOfGroup ms with
    | none => exact Or.inr rfl
    | some m =>
    cases intOfGroup ss with
    | none => exact Or.inr rfl
    | some s =>
    cases intOfGroup bs with
    | none => exact Or.inr rfl
    | some b => exact Or.inl ⟨_, rfl⟩

theorem enumFrom_get? :
    ∀ (ls : List String) (k i : Nat),
      (enumFrom k ls).get? i = (ls.get? i).map (fun l => (k + i, l)) := by
  intro ls
  induction ls with
  | nil => intro k i; simp [enumFrom]
  | cons l t ih =>
    intro k i
    cases i with
    | zero => simp [enumFrom]
    | succ n =>
      rw [enumFrom]
      have h1 : (((k, l) :: enumFrom (k + 1) t).get? (n + 1)) =
          (enumFrom (k + 1) t).get? n := rfl
      have h2 : ((l :: t).get? (n + 1)) = t.get? n := rfl
      rw [h1, h2, ih (k + 1) n]
      have h3 : k + 1 + n = k + (n + 1) := by omega
      rw [h3]

/-- C2: for every input line, the per-line parsing is total — it
returns either a complete `LogRecord` or the `LogRecordParseError`
carrying the originating file path and the zero-based line number, and
nothing else; no incomplete record exists (a `LogRecord` always carries all
six fields). -/
theorem C2_record_or_error (fp : String) (lines : List String) (i : Nat)
    (h : i < lines.length) :
    (∃ rec, (gen_file_log_records fp lines).get? i =
      some (.record rec)) ∨
    (gen_file_log_records fp lines).get? i = some (.error fp i) := by
  unfold gen_file_log_records
  rw [List.get?_map, enumFrom_get?]
  cases hl : lines.get? i with
  | none =>
    rw [List.get?_eq_none] at hl
    omega
  | some line =>
    have h0 : (0 : Nat) + i = i := by omega
    rcases parse_cases fp i line with ⟨rec, hr⟩ | he
    · exact Or.inl ⟨rec, by simp [h0, hr]⟩
    · exact Or.inr (by simp [h0, he])

/-- Witness for C2: a line that does not match the pattern becomes the
parse error for its file and index. -/
theorem C2_record_or_error_witness :
    (gen_file_log_records "f" ["x"]).get? 0 = some (.error "f" 0) := by
  rcases C2_record_or_error "f" ["x"] 0 (by decide) with ⟨rec, hr⟩ | he
  · rw [show (gen_file_log_records "f" ["x"]).get? 0 =
        some (ParseResult.error "f" 0) from by decide] at hr
    exact ParseResult.noConfusion (Option.some.inj hr)
  · exact he

/-- C10: the exception branch of `_gen_file_log_records` is
unreachable — for every line the pattern matches, all four numeric groups
are captured as nonempty digit runs on which `int` succeeds, the
unescaping replacements are total, and the line parses into a record; so
every parse error the per-line parsing emits comes from a pattern
mismatch alone. -/
theorem C10_conversion_never_fails :
    (∀ (line : String) (caps : Caps) (fp : String) (ln : Nat),
      log_record_match line = some caps →
      (∀ g, GName.isNumeric g = true →
        ∃ w, caps.get g = some w ∧ w ≠ [] ∧ (∀ c ∈ w, c.isDigit = true) ∧
          intOfGroup w = some (digitsToNat w)) ∧
      ∃ rec, parse_log_line fp ln line = .record rec) ∧
    (∀ (fp : String) (ln : Nat) (line : String),
      parse_log_line fp ln line = .error fp ln →
      log_record_match line = none) := by
  constructor
  · intro line caps fp ln h
    constructor
    · intro g hnum
      obtain ⟨w, hw, hwOK⟩ := goodCaps_some (log_record_match_groups h g)
      exact ⟨w, hw, hwOK.1, hwOK.2 hnum, intOfGroup_some hnum hwOK⟩
    · obtain ⟨ys, ms, ss, bs, lang, fn, _, _, _, _, _, _, hp⟩ :=
        parse_of_match fp ln h
      exact ⟨_, hp⟩
  · intro fp ln line he
    cases hm : log_record_match line with
    | none => rfl
    | some caps =>
      obtain ⟨ys, ms, ss, bs, lang, fn, _, _, _, _, _, _, hp⟩ :=
        parse_of_match fp ln hm
      rw [he] at hp
      exact ParseResult.noConfusion hp

/-- Witness for C10: a matching line parses into a record (so is not the
error), and a mismatching line is rejected by the pattern. -/
theorem C10_conversion_never_fails_witness :
    parse_log_line "f" 0
      "1.2.3.4 - - [15/03/2017:00:00:00 +0000] \"GET /Python/readme.txt HTTP/1.1\" 200 1000000"
      ≠ ParseResult.error "f" 0 ∧
    log_record_match "x" = none := by
  constructor
  · obtain ⟨hgroups, rec, hp⟩ := C10_conversion_never_fails.1
      "1.2.3.4 - - [15/03/2017:00:00:00 +0000] \"GET /Python/readme.txt HTTP/1.1\" 200 1000000"
      (Option.get (log_record_match
        "1.2.3.4 - - [15/03/2017:00:00:00 +0000] \"GET /Python/readme.txt HTTP/1.1\" 200 1000000")
        (by decide)) "f" 0 (by
          rw [Option.some_get])
    rw [hp]
    simp
  · exact C10_conversion_never_fails.2 "f" 0 "x" (by decide)

/-! ### C8: out-of-range month numbers -/

/-- A matching line carrying month number 0. -/
theorem C8_counterexample :
    parse_log_line "f" 0 line0 = .record rec0 ∧
    rec0.month = 0 ∧ ¬(1 ≤ rec0.month ∧ rec0.month ≤ 12) ∧
    format_month rec0.month = some "" ∧
    get_stats_assoc [rec0] ≠ none := by
  exact ⟨by decide, rfl, by decide, rfl, by decide⟩

/-- A run containing a record whose month exceeds 12 fails at the
month-name lookup.  (Helper for the amended C8; the induction carries the
dictionary invariant, whose keys all hold formattable months.) -/
theorem fold_none_of_big_month :
    ∀ (records : List LogRecord) (ms : List (MonthKey × MonthData))
      (r : LogRecord), statsInv ms → r ∈ records → 12 < r.month →
      records.foldlM stats_step ms = none := by
  intro records
  induction records with
  | nil =>
    intro ms r _ hr
    exact absurd hr (List.not_mem_nil r)
  | cons r' t ih =>
    intro ms r hInv hr h13
    rw [List.foldlM_cons]
    rcases List.mem_cons.mp hr with rfl | hrt
    · have hstep : stats_step ms r = none := by
        have hlk : alookup (r.year, r.month) ms = none := by
          rw [alookup_none_iff]
          intro hmem
          obtain ⟨p, hp, hpk⟩ := List.mem_map.mp hmem
          have := (hInv.1 p hp).2
          rw [hpk] at this
          omega
        have hfm : format_month r.month = none := by
          unfold format_month
          refine List.get?_eq_none.mpr ?_
          have : month_name.length = 13 := rfl
          omega
        unfold stats_step ensureMonth
        rw [hlk, hfm]
        rfl
      rw [hstep]
      rfl
    · cases hstep : stats_step ms r' with
      | none => rfl
      | some ms₁ => exact ih ms₁ r (statsInv_step hInv hstep) hrt h13

/-- C8 (amended: "outside 1–12" must read "greater than 12"; month 0
also lies outside 1–12 yet resolves to the empty month name without any
failure, as the counterexample records).  Every line the pattern matches
parses into a `LogRecord` — never a parse error — whatever its month
number; month numbers greater than 12 have no month name; and any record
list containing a record with such a month makes the accumulation fail at
the month-name lookup. -/
theorem C8_out_of_range_month :
    (∀ (line : String) (caps : Caps) (fp : String) (ln : Nat),
      log_record_match line = some caps →
      ∃ rec, parse_log_line fp ln line = .record rec) ∧
    (∀ m : Nat, 12 < m → format_month m = none) ∧
    (∀ (records : List LogRecord) (r : LogRecord),
      r ∈ records → 12 < r.month → get_stats_assoc records = none) := by
  refine ⟨?_, ?_, ?_⟩
  · intro line caps fp ln h
    obtain ⟨ys, ms, ss, bs, lang, fn, _, _, _, _, _, _, hp⟩ :=
      parse_of_match fp ln h
    exact ⟨_, hp⟩
  · intro m hm
    unfold format_month
    refine List.get?_eq_none.mpr ?_
    have : month_name.length = 13 := rfl
    omega
  · intro records r hr h13
    exact fold_none_of_big_month records [] r statsInv_nil hr h13

/-- A matching line carrying month number 13, and its record. -/
theorem C8_out_of_range_month_witness :
    parse_log_line "f" 0 line13 ≠ .error "f" 0 ∧
    format_month 13 = none ∧
    get_stats_assoc [rec13] = none := by
  refine ⟨?_, C8_out_of_range_month.2.1 13 (by omega),
    C8_out_of_range_month.2.2 [rec13] rec13 (by simp) (by decide)⟩
  obtain ⟨rec, hp⟩ := C8_out_of_range_month.1 line13
    (Option.get (log_record_match line13) (by decide)) "f" 0
    (by rw [Option.some_get])
  rw [hp]
  simp

/-! ### C9: file-name unescaping -/

/-- C9: the unescaping applied by the parsing maps the escaped quote
to a quote and the escaped backslash to a backslash without
double-unescaping artifacts: a matched line whose captured file-name field
is `a\\b` parses with file name `a\b`, and one whose captured field is
`a\"b` parses with file name `a"b`. -/
theorem C9_unescape_file_name (fp : String) (ln : Nat) (line : String)
    (caps : Caps) (rec : LogRecord)
    (h : log_record_match line = some caps)
    (hp : parse_log_line fp ln line = .record rec) :
    (caps.file_name = some ['a', '\\', '\\', 'b'] →
      rec.file_name = "a\\b") ∧
    (caps.file_name = some ['a', '\\', '"', 'b'] →
      rec.file_name = "a\"b") := by
  obtain ⟨ys, ms, ss, bs, lang, fn, _, _, _, _, _, hf, hparse⟩ :=
    parse_of_match fp ln h
  have hrec := ParseResult.record.inj (hp.symm.trans hparse)
  constructor
  · intro hfn
    have : fn = ['a', '\\', '\\', 'b'] :=
      Option.some.inj (hf.symm.trans hfn)
    rw [hrec, this]
    show String.mk (unescape ['a', '\\', '\\', 'b']) = "a\\b"
    decide
  · intro hfn
    have : fn = ['a', '\\', '"', 'b'] :=
      Option.some.inj (hf.symm.trans hfn)
    rw [hrec, this]
    show String.mk (unescape ['a', '\\', '"', 'b']) = "a\"b"
    decide

/-- The lines used to witness C9, with captured file names `a\\b` and
`a\"b`. -/
theorem C9_unescape_file_name_witness :
    recW9a.file_name = "a\\b" ∧ recW9b.file_name = "a\"b" := by
  constructor
  · exact (C9_unescape_file_name "f" 0 lineW9a
      (Option.get (log_record_match lineW9a) (by decide)) recW9a
      (by rw [Option.some_get]) (by decide)).1 (by decide)
  · exact (C9_unescape_file_name "f" 0 lineW9b
      (Option.get (log_record_match lineW9b) (by decide)) recW9b
      (by rw [Option.some_get]) (by decide)).2 (by decide)

end LogParser
